import Mathlib

/-!
# ofxPower: power-source reconciliation (`checkps`) and `GetPowerState`

A shallow embedding of `src/ofxPower.cpp`.

* A `CFDictionaryRef` power-source description is a record of the six keys
  `checkps` reads; every key may be absent (`GETVAL` fails), hence `Option`.
* The out-parameters of `checkps` are threaded as an accumulator record.
  `*seconds` is an `unsigned long long`, held as a `Nat` below `2 ^ 64`;
  `*percent` is a `float` that only ever receives converted `int`s, held as
  the (integer) value of that float.
* `int` arithmetic is 32-bit two's complement, `double` arithmetic is IEEE-754
  binary64 with round-to-nearest-even, modelled exactly on integers.
-/

namespace OfxPower

/-! ## Machine arithmetic -/

/-- Two's-complement wrap of an integer to a signed 32-bit `int`. -/
def wrapInt32 (v : Int) : Int :=
  (v + 2 ^ 31) % 2 ^ 32 - 2 ^ 31

/-- Conversion `int -> unsigned long long` (value modulo `2 ^ 64`), as in
`secs > *seconds` and `*seconds = secs`. -/
def toU64 (v : Int) : Nat :=
  (v % 2 ^ 64).toNat

/-- Floor of the binary logarithm, by halving; `fuel` bounds the number of
halvings (`log2Fuel n n` is the logarithm of `n`). -/
def log2Fuel : Nat → Nat → Nat
  | 0, _ => 0
  | fuel + 1, n => if n < 2 then 0 else log2Fuel fuel (n / 2) + 1

/-- Floor of the binary logarithm of a positive natural number. -/
def ilog2 (n : Nat) : Nat :=
  log2Fuel n n

/-- Round the positive fraction `n / d` to the nearest integer, ties to even. -/
def roundNearestEven (n d : Nat) : Nat :=
  let q := n / d
  let r := n % d
  if 2 * r < d then q
  else if d < 2 * r then q + 1
  else if q % 2 = 0 then q else q + 1

/-- The fraction `n / d` multiplied by `2 ^ s`, as a numerator and denominator. -/
def scale2 (n d : Nat) (s : Int) : Nat × Nat :=
  if 0 ≤ s then (n * 2 ^ s.toNat, d) else (n, d * 2 ^ (-s).toNat)

/-- A positive finite `double`, `m * 2 ^ e`. -/
structure Dbl where
  m : Nat
  e : Int
  deriving DecidableEq, Repr

/-- The `double` nearest to the positive fraction `n / d` (round to nearest,
ties to even, 53-bit significand; the exponent range is not modelled, every
value reached from 32-bit integers is a normal number). -/
def roundToDouble (n d : Nat) : Dbl :=
  let s0 : Int := 53 + (ilog2 d : Int) - (ilog2 n : Int)
  let p0 := scale2 n d s0
  let s : Int := if p0.1 / p0.2 < 2 ^ 53 then s0 else s0 - 1
  let p := scale2 n d s
  ⟨roundNearestEven p.1 p.2, -s⟩

/-- The `double` division `((double) a) / ((double) b)` of two positive `int`s. -/
def Dbl.ofDiv (a b : Nat) : Dbl :=
  roundToDouble a b

/-- The `double` product `x * 100.0`. -/
def Dbl.mul100 (x : Dbl) : Dbl :=
  let p := scale2 (x.m * 100) 1 x.e
  roundToDouble p.1 p.2

/-- Integer part of a positive `double` (truncation toward zero). -/
def Dbl.trunc (x : Dbl) : Nat :=
  if 0 ≤ x.e then x.m * 2 ^ x.e.toNat else x.m / 2 ^ (-x.e).toNat

/-- The cast `(int) x` of a positive `double`: truncation; a value that does
not fit an `int` gives `INT_MIN`, the x86 "integer indefinite" result of
`cvttsd2si`. -/
def Dbl.toInt32 (x : Dbl) : Int :=
  if x.trunc < 2 ^ 31 then (x.trunc : Int) else -(2 ^ 31)

/-- The nearest `float` (24-bit significand, ties to even) to a natural number. -/
def roundToFloatNat (n : Nat) : Nat :=
  if n ≤ 2 ^ 24 then n
  else
    let e := ilog2 n - 23
    roundNearestEven n (2 ^ e) * 2 ^ e

/-- Conversion `int -> float`, as in `*percent = pct` and `pct > *percent`;
the result is the value of the float, always an integer. -/
def floatOfInt (i : Int) : Int :=
  if 0 ≤ i then (roundToFloatNat i.toNat : Int) else -(roundToFloatNat (-i).toNat : Int)

/-! ## Data model -/

/-- Value stored under `kIOPSPowerSourceStateKey`: `kIOPSACPowerValue`,
`kIOPSBatteryPowerValue`, or any other string (such as `kIOPSOffLineValue`). -/
inductive PowerSourceState
  | acPower
  | batteryPower
  | offLine
  deriving DecidableEq, Repr

/-- The power-source description `dict` handed to `checkps`: the value found
under each key `checkps` looks up, `none` when `GETVAL` finds no such key.
Numbers are the `SInt32` values `CFNumberGetValue` delivers. -/
structure PowerSourceDescription where
  isPresent : Option Bool
  powerSourceState : Option PowerSourceState
  isCharging : Option Bool
  maxCapacity : Option Int
  timeToEmpty : Option Int
  currentCapacity : Option Int
  deriving DecidableEq, Repr

/-- The variables `checkps` updates through its pointer arguments. -/
structure Accumulator where
  have_ac : Bool
  have_battery : Bool
  charging : Bool
  seconds : Nat
  percent : Int
  deriving DecidableEq, Repr

/-- Modelled from the spec: the state enumeration of `PowerInfo`, declared in
`ofxPower.h`, which is not among the sources; the constant names are those
`GetPowerState` assigns. -/
inductive State
  | STATE_UNKNOWN
  | STATE_NO_BATTERY
  | STATE_CHARGING
  | STATE_CHARGED
  | STATE_ON_BATTERY
  deriving DecidableEq, Repr

/-- Modelled from the spec: the result record `PowerInfo`, declared in
`ofxPower.h`, which is not among the sources. `seconds` is the
`unsigned long long` and `percent` the `float` whose addresses
`GetPowerState` passes to `checkps`. -/
structure PowerInfo where
  state : State
  seconds : Nat
  percent : Int
  deriving DecidableEq, Repr

/-! ## `checkps` -/

/-- The local `charge`: true only when `kIOPSIsChargingKey` is present and true. -/
def charge (dict : PowerSourceDescription) : Bool :=
  match dict.isCharging with
  | some true => true
  | _ => false

/-- The local `maxpct` after the `kIOPSMaxCapacityKey` blocks: the value when
it is present and positive, otherwise the initial `-1`. -/
def maxpct (dict : PowerSourceDescription) : Int :=
  match dict.maxCapacity with
  | some val => if val > 0 then val else -1
  | none => -1

/-- Whether the `kIOPSMaxCapacityKey` blocks execute `*have_battery = true`. -/
def seesBattery (dict : PowerSourceDescription) : Bool :=
  match dict.maxCapacity with
  | some val => decide (val > 0)
  | none => false

/-- The local `secs` after the `kIOPSTimeToEmptyKey` block. -/
def secs (dict : PowerSourceDescription) (is_ac : Bool) : Int :=
  match dict.timeToEmpty with
  | some val =>
    let val := if val = 0 ∧ is_ac = true then -1 else val
    if val > 0 then wrapInt32 (val * 60) else val
  | none => -1

/-- The normalisation `(int) ((((double) pct) / ((double) maxpct)) * 100.0)`
for positive `pct` and `maxpct`. -/
def normalize (pct maxpct : Int) : Int :=
  (Dbl.ofDiv pct.toNat maxpct.toNat).mul100.toInt32

/-- The local `pct` after the `kIOPSCurrentCapacityKey` block, the
normalisation and the clamp to 100. -/
def pct (dict : PowerSourceDescription) : Int :=
  let pct0 : Int :=
    match dict.currentCapacity with
    | some val => val
    | none => -1
  let pct1 := if pct0 > 0 ∧ maxpct dict > 0 then normalize pct0 (maxpct dict) else pct0
  if pct1 > 100 then 100 else pct1

/-- The local `choose` after the selection block, given the descriptor's
`secs` and `pct` and the running `*seconds` and `*percent`. -/
def choose (secs pct : Int) (seconds : Nat) (percent : Int) : Bool :=
  if secs < 0 ∧ seconds < 0 then
    let choose := if pct < 0 ∧ percent < 0 then true else false
    if floatOfInt pct > percent then true else choose
  else if toU64 secs > seconds then true
  else false

/-- The part of `checkps` after the power-source-state test, with the flag
`is_ac` it computed. -/
def checkpsBody (dict : PowerSourceDescription) (is_ac : Bool) (a : Accumulator) :
    Accumulator :=
  let a1 := if seesBattery dict then { a with have_battery := true } else a
  if choose (secs dict is_ac) (pct dict) a1.seconds a1.percent then
    { a1 with
      seconds := toU64 (secs dict is_ac)
      percent := floatOfInt (pct dict)
      charging := charge dict }
  else a1

/-- One call `checkps(dict, &have_ac, &have_battery, &charging, &seconds,
&percent)`: the accumulator after the call. -/
def checkps (dict : PowerSourceDescription) (a : Accumulator) : Accumulator :=
  if dict.isPresent = some false then a
  else
    match dict.powerSourceState with
    | none => a
    | some strval =>
      if strval = PowerSourceState.acPower then
        checkpsBody dict true { a with have_ac := true }
      else if strval ≠ PowerSourceState.batteryPower then a
      else checkpsBody dict false a

/-! ## `GetPowerState` -/

/-- The build target selected by the preprocessor. -/
inductive Target
  | TARGET_OSX
  | TARGET_LINUX
  | other
  deriving DecidableEq, Repr

/-- What the operating system hands to `GetPowerState`:
`IOPSCopyPowerSourcesInfo` returned `NULL` (`noBlob`), or
`IOPSCopyPowerSourcesList` returned `NULL` (`noList`), or a list whose items
are the results of `IOPSGetPowerSourceDescription` (`none` for `NULL`). -/
inductive PowerSources
  | noBlob
  | noList
  | list (items : List (Option PowerSourceDescription))

/-- The variables of `GetPowerState` before the loop: `have_ac`,
`have_battery`, `charging` false, `info.seconds = 0`, `info.percent = 0.0f`. -/
def initial : Accumulator :=
  { have_ac := false, have_battery := false, charging := false, seconds := 0, percent := 0 }

/-- The `for` loop of `GetPowerState` over the list items. -/
def loop (items : List (Option PowerSourceDescription)) (a : Accumulator) : Accumulator :=
  items.foldl (fun acc ps =>
    match ps with
    | some dict => checkps dict acc
    | none => acc) a

/-- The state derived from the flags after the loop. -/
def deriveState (a : Accumulator) : State :=
  if !a.have_battery then State.STATE_NO_BATTERY
  else if a.charging then State.STATE_CHARGING
  else if a.have_ac then State.STATE_CHARGED
  else State.STATE_ON_BATTERY

/-- The function `GetPowerState`, of the build target and of what the
operating system reports. -/
def GetPowerState (target : Target) (sources : PowerSources) : PowerInfo :=
  match target, sources with
  | Target.TARGET_OSX, PowerSources.list items =>
    let a := loop items initial
    { state := deriveState a, seconds := a.seconds, percent := a.percent }
  | _, _ => { state := State.STATE_UNKNOWN, seconds := 0, percent := 0 }

/-- The reconciliation of a list of power-source descriptions: `GetPowerState`
on the implemented target with every description available. -/
def Query (ds : List PowerSourceDescription) : PowerInfo :=
  GetPowerState Target.TARGET_OSX (PowerSources.list (ds.map some))

/-! ## Predicates on descriptions used in the statements -/

/-- The flag `is_ac` that `checkps` computes: the power-source state is
`kIOPSACPowerValue`. -/
def isAC (d : PowerSourceDescription) : Bool :=
  decide (d.powerSourceState = some PowerSourceState.acPower)

/-- A description on which `checkps` does not return early: it is not marked
absent and its power-source state is AC power or battery power. -/
def counted (d : PowerSourceDescription) : Bool :=
  decide (d.isPresent ≠ some false) &&
    (decide (d.powerSourceState = some PowerSourceState.acPower) ||
      decide (d.powerSourceState = some PowerSourceState.batteryPower))

/-- The left fold of `checkps` over a list of descriptions. -/
def run (ds : List PowerSourceDescription) (a : Accumulator) : Accumulator :=
  ds.foldl (fun acc d => checkps d acc) a

/-- The selection test as the single comparison `(unsigned long long) secs >
*seconds`, in which neither percent takes part; compared with `choose`, the
selection block of the source. -/
def chooseUnsigned (secs : Int) (seconds : Nat) : Bool :=
  decide (toU64 secs > seconds)

/-- The maximum of 0 and the `secs` values, converted to `unsigned long long`,
of the descriptions of a list on which `checkps` does not return early. -/
def maxSeconds (ds : List PowerSourceDescription) : Nat :=
  ((ds.filter counted).map (fun d => toU64 (secs d (isAC d)))).foldr max 0

/-! ## Basic facts about the arithmetic -/

theorem wrapInt32_of_fits (v : Int) (hlo : -(2 ^ 31) ≤ v) (hhi : v < 2 ^ 31) :
    wrapInt32 v = v := by
  unfold wrapInt32
  omega

theorem toU64_of_nonneg (v : Int) (hlo : 0 ≤ v) (hhi : v < 2 ^ 64) :
    (toU64 v : Int) = v := by
  unfold toU64
  omega

theorem toU64_of_neg (v : Int) (hlo : -(2 ^ 64) < v) (hhi : v < 0) :
    (toU64 v : Int) = 2 ^ 64 + v := by
  unfold toU64
  omega

theorem toU64_lt (v : Int) : toU64 v < 2 ^ 64 := by
  unfold toU64
  omega

theorem toU64_neg_one : toU64 (-1) = 2 ^ 64 - 1 := by
  decide

/-! ## The steps of `checkps` -/

/-- The selection test reduces to the unsigned comparison: `*seconds < 0`
never holds for an `unsigned long long`. -/
theorem choose_eq_decide (s p : Int) (sec : Nat) (per : Int) :
    choose s p sec per = decide (toU64 s > sec) := by
  unfold choose
  simp

theorem checkps_of_absent (d : PowerSourceDescription) (a : Accumulator)
    (h : d.isPresent = some false) : checkps d a = a := by
  simp [checkps, h]

theorem checkps_of_other (d : PowerSourceDescription) (a : Accumulator)
    (hac : d.powerSourceState ≠ some PowerSourceState.acPower)
    (hbat : d.powerSourceState ≠ some PowerSourceState.batteryPower) :
    checkps d a = a := by
  unfold checkps
  split
  · rfl
  · cases hs : d.powerSourceState with
    | none => rfl
    | some st =>
      rw [hs] at hac hbat
      have h1 : st ≠ PowerSourceState.acPower := fun h => hac (by rw [h])
      have h2 : st ≠ PowerSourceState.batteryPower := fun h => hbat (by rw [h])
      simp [h1, h2]

theorem checkps_of_ac (d : PowerSourceDescription) (a : Accumulator)
    (hp : d.isPresent ≠ some false)
    (hk : d.powerSourceState = some PowerSourceState.acPower) :
    checkps d a = checkpsBody d true { a with have_ac := true } := by
  simp [checkps, hp, hk]

theorem checkps_of_battery (d : PowerSourceDescription) (a : Accumulator)
    (hp : d.isPresent ≠ some false)
    (hk : d.powerSourceState = some PowerSourceState.batteryPower) :
    checkps d a = checkpsBody d false a := by
  simp [checkps, hp, hk]

theorem checkpsBody_seconds (d : PowerSourceDescription) (ac : Bool) (a : Accumulator) :
    (checkpsBody d ac a).seconds =
      if toU64 (secs d ac) > a.seconds then toU64 (secs d ac) else a.seconds := by
  unfold checkpsBody
  simp only [choose_eq_decide]
  cases seesBattery d <;> simp <;> split <;> rfl

theorem checkpsBody_percent (d : PowerSourceDescription) (ac : Bool) (a : Accumulator) :
    (checkpsBody d ac a).percent =
      if toU64 (secs d ac) > a.seconds then floatOfInt (pct d) else a.percent := by
  unfold checkpsBody
  simp only [choose_eq_decide]
  cases seesBattery d <;> simp <;> split <;> rfl

theorem checkpsBody_charging (d : PowerSourceDescription) (ac : Bool) (a : Accumulator) :
    (checkpsBody d ac a).charging =
      if toU64 (secs d ac) > a.seconds then charge d else a.charging := by
  unfold checkpsBody
  simp only [choose_eq_decide]
  cases seesBattery d <;> simp <;> split <;> rfl

theorem checkpsBody_have_battery (d : PowerSourceDescription) (ac : Bool)
    (a : Accumulator) :
    (checkpsBody d ac a).have_battery = (a.have_battery || seesBattery d) := by
  unfold checkpsBody
  simp only [choose_eq_decide]
  cases seesBattery d <;> simp <;> split <;> rfl

theorem checkpsBody_have_ac (d : PowerSourceDescription) (ac : Bool) (a : Accumulator) :
    (checkpsBody d ac a).have_ac = a.have_ac := by
  unfold checkpsBody
  simp only [choose_eq_decide]
  cases seesBattery d <;> simp <;> split <;> rfl

/-- The loop over a list in which every description is available is the left
fold of `checkps`. -/
theorem loop_map_some (ds : List PowerSourceDescription) (a : Accumulator) :
    loop (ds.map some) a = ds.foldl (fun acc d => checkps d acc) a := by
  unfold loop
  rw [List.foldl_map]

theorem Query_eq (ds : List PowerSourceDescription) :
    Query ds =
      { state := deriveState (ds.foldl (fun acc d => checkps d acc) initial)
        seconds := (ds.foldl (fun acc d => checkps d acc) initial).seconds
        percent := (ds.foldl (fun acc d => checkps d acc) initial).percent } := by
  simp [Query, GetPowerState, loop_map_some]

/-- The local `secs` of a battery description that reports `t > 0` minutes
with `60 * t` in the range of an `int`. -/
theorem secs_of_known (d : PowerSourceDescription) (ac : Bool) (t : Int)
    (ht : d.timeToEmpty = some t) (hpos : 0 < t) (hfit : 60 * t < 2 ^ 31) :
    secs d ac = 60 * t := by
  unfold secs
  rw [ht]
  have h0 : ¬ (t = 0 ∧ ac = true) := fun h => by omega
  simp only [h0, if_false]
  have h1 : t > 0 := hpos
  simp only [h1, if_true]
  rw [wrapInt32_of_fits] <;> omega

/-- Two battery descriptions with known positive times, processed in the
given order from the initial accumulator. -/
theorem seconds_of_two_known (d1 d2 : PowerSourceDescription) (t1 t2 : Int)
    (hp1 : d1.isPresent ≠ some false)
    (hk1 : d1.powerSourceState = some PowerSourceState.batteryPower)
    (hp2 : d2.isPresent ≠ some false)
    (hk2 : d2.powerSourceState = some PowerSourceState.batteryPower)
    (ht1 : d1.timeToEmpty = some t1) (ht2 : d2.timeToEmpty = some t2)
    (h1 : 0 < t1) (h2 : 0 < t2) (hf1 : 60 * t1 < 2 ^ 31) (hf2 : 60 * t2 < 2 ^ 31) :
    ((Query [d1, d2]).seconds : Int) = 60 * max t1 t2 := by
  have hu1 := toU64_of_nonneg (60 * t1) (by omega) (by omega)
  have hu2 := toU64_of_nonneg (60 * t2) (by omega) (by omega)
  rw [Query_eq]
  simp only [List.foldl, checkps_of_battery _ _ hp1 hk1, checkps_of_battery _ _ hp2 hk2,
    checkpsBody_seconds, secs_of_known d1 false t1 ht1 h1 hf1,
    secs_of_known d2 false t2 ht2 h2 hf2, initial]
  split_ifs <;> omega

/-! ## Invariants of the loop -/

theorem checkps_eq (d : PowerSourceDescription) (a : Accumulator) :
    checkps d a =
      if counted d then checkpsBody d (isAC d) { a with have_ac := a.have_ac || isAC d }
      else a := by
  by_cases hp : d.isPresent = some false
  · simp [checkps, counted, hp]
  · cases hs : d.powerSourceState with
    | none => simp [checkps, counted, hp, hs]
    | some st => cases st <;> simp [checkps, counted, isAC, hp, hs]

theorem run_nil (a : Accumulator) : run [] a = a := rfl

theorem run_cons (d : PowerSourceDescription) (ds : List PowerSourceDescription)
    (a : Accumulator) : run (d :: ds) a = run ds (checkps d a) := rfl

theorem run_append (xs ys : List PowerSourceDescription) (a : Accumulator) :
    run (xs ++ ys) a = run ys (run xs a) := by
  unfold run
  rw [List.foldl_append]

theorem Query_eq_run (ds : List PowerSourceDescription) :
    Query ds =
      { state := deriveState (run ds initial)
        seconds := (run ds initial).seconds
        percent := (run ds initial).percent } :=
  Query_eq ds

theorem checkps_have_battery (d : PowerSourceDescription) (a : Accumulator) :
    (checkps d a).have_battery = (a.have_battery || (counted d && seesBattery d)) := by
  rw [checkps_eq]
  cases hc : counted d <;> simp [checkpsBody_have_battery]

theorem checkps_have_ac (d : PowerSourceDescription) (a : Accumulator) :
    (checkps d a).have_ac = (a.have_ac || (counted d && isAC d)) := by
  rw [checkps_eq]
  cases hc : counted d <;> simp [checkpsBody_have_ac]

theorem checkps_seconds (d : PowerSourceDescription) (a : Accumulator) :
    (checkps d a).seconds =
      if counted d = true ∧ toU64 (secs d (isAC d)) > a.seconds then toU64 (secs d (isAC d))
      else a.seconds := by
  rw [checkps_eq]
  cases hc : counted d <;> simp [checkpsBody_seconds]

theorem checkps_percent (d : PowerSourceDescription) (a : Accumulator) :
    (checkps d a).percent =
      if counted d = true ∧ toU64 (secs d (isAC d)) > a.seconds then floatOfInt (pct d)
      else a.percent := by
  rw [checkps_eq]
  cases hc : counted d <;> simp [checkpsBody_percent]

theorem checkps_charging (d : PowerSourceDescription) (a : Accumulator) :
    (checkps d a).charging =
      if counted d = true ∧ toU64 (secs d (isAC d)) > a.seconds then charge d
      else a.charging := by
  rw [checkps_eq]
  cases hc : counted d <;> simp [checkpsBody_charging]

theorem run_have_battery (ds : List PowerSourceDescription) (a : Accumulator) :
    (run ds a).have_battery =
      (a.have_battery || ds.any (fun d => counted d && seesBattery d)) := by
  induction ds generalizing a with
  | nil => simp [run_nil]
  | cons d ds ih => rw [run_cons, ih, checkps_have_battery, List.any_cons, Bool.or_assoc]

theorem run_have_ac (ds : List PowerSourceDescription) (a : Accumulator) :
    (run ds a).have_ac = (a.have_ac || ds.any (fun d => counted d && isAC d)) := by
  induction ds generalizing a with
  | nil => simp [run_nil]
  | cons d ds ih => rw [run_cons, ih, checkps_have_ac, List.any_cons, Bool.or_assoc]

theorem counted_iff (d : PowerSourceDescription) :
    counted d = true ↔
      d.isPresent ≠ some false ∧
        (d.powerSourceState = some PowerSourceState.acPower ∨
          d.powerSourceState = some PowerSourceState.batteryPower) := by
  simp [counted]

theorem seesBattery_iff (d : PowerSourceDescription) :
    seesBattery d = true ↔ ∃ M : Int, d.maxCapacity = some M ∧ 0 < M := by
  unfold seesBattery
  cases d.maxCapacity with
  | none => simp
  | some v => simp

theorem run_charging_false (ds : List PowerSourceDescription) (a : Accumulator)
    (hnc : ∀ d ∈ ds, counted d = true → charge d = false) (ha : a.charging = false) :
    (run ds a).charging = false := by
  induction ds generalizing a with
  | nil => simpa [run_nil] using ha
  | cons d ds ih =>
    rw [run_cons]
    apply ih _ (fun e he hc => hnc e (List.mem_cons_of_mem d he) hc)
    rw [checkps_charging]
    split
    · next h => exact hnc d (List.mem_cons_self d ds) h.1
    · exact ha

theorem charge_eq_false_iff (d : PowerSourceDescription) :
    charge d = false ↔ d.isCharging ≠ some true := by
  unfold charge
  cases d.isCharging with
  | none => simp
  | some b => cases b <;> simp

theorem pct_le_100 (d : PowerSourceDescription) : pct d ≤ 100 := by
  unfold pct
  simp only
  split_ifs <;> omega

theorem floatOfInt_le_100 (i : Int) (h : i ≤ 100) : floatOfInt i ≤ 100 := by
  unfold floatOfInt
  split
  · have h1 : i.toNat ≤ 2 ^ 24 := by omega
    unfold roundToFloatNat
    rw [if_pos h1]
    omega
  · omega

theorem run_percent_le_100 (ds : List PowerSourceDescription) (a : Accumulator)
    (ha : a.percent ≤ 100) : (run ds a).percent ≤ 100 := by
  induction ds generalizing a with
  | nil => simpa [run_nil] using ha
  | cons d ds ih =>
    rw [run_cons]
    apply ih
    rw [checkps_percent]
    split
    · exact floatOfInt_le_100 _ (pct_le_100 d)
    · exact ha

/-! ## Bounds on the normalised percent -/

theorem log2Fuel_spec (fuel n : Nat) (hn : n ≤ fuel) (hpos : 0 < n) :
    2 ^ log2Fuel fuel n ≤ n ∧ n < 2 ^ (log2Fuel fuel n + 1) := by
  induction fuel generalizing n with
  | zero => omega
  | succ fuel ih =>
    unfold log2Fuel
    split
    · next h => exact ⟨by simp; omega, by simp; omega⟩
    · next h =>
      have := ih (n / 2) (by omega) (by omega)
      rw [pow_succ, pow_succ]
      rw [pow_succ] at this
      omega

theorem ilog2_lt_of_lt_pow (n k : Nat) (h : n < 2 ^ k) : ilog2 n < k ∨ n = 0 := by
  by_cases hn : n = 0
  · exact Or.inr hn
  · left
    have h1 := (log2Fuel_spec n n le_rfl (by omega)).1
    have h2 : 2 ^ ilog2 n < 2 ^ k := lt_of_le_of_lt h1 h
    exact (Nat.pow_lt_pow_iff_right (by norm_num)).mp h2

theorem roundNearestEven_le (n d k : Nat) (hd : 0 < d) (h : n ≤ k * d) :
    roundNearestEven n d ≤ k := by
  have hdm := Nat.div_add_mod n d
  have hq : n / d ≤ k := Nat.div_le_of_le_mul (by rw [Nat.mul_comm]; exact h)
  have hlt : 0 < n % d → n / d < k := by
    intro hr
    by_contra hc
    have hk : k * d ≤ n / d * d := Nat.mul_le_mul_right d (by omega)
    rw [Nat.mul_comm (n / d) d] at hk
    omega
  unfold roundNearestEven
  simp only
  split_ifs <;> omega

/-- Rounding a fraction that is at most `k` (for `k` up to 128) to a `double`
gives a value that is at most `k`, with a non-positive exponent. -/
theorem roundToDouble_le (n d k : Nat) (hd : 0 < d) (hk : k ≤ 128) (h : n ≤ k * d) :
    (roundToDouble n d).e ≤ 0 ∧
      (roundToDouble n d).m ≤ k * 2 ^ (-(roundToDouble n d).e).toNat := by
  have hlog : ilog2 n ≤ ilog2 d + 7 := by
    have hd2 := (log2Fuel_spec d d le_rfl hd).2
    have hn : n < 2 ^ (ilog2 d + 8) := by
      have : 2 ^ (ilog2 d + 8) = 2 ^ (ilog2 d + 1) * 128 := by
        rw [show ilog2 d + 8 = (ilog2 d + 1) + 7 from rfl, pow_add]
        norm_num
      rw [this]
      have h3 : k * d ≤ 128 * d := Nat.mul_le_mul_right d hk
      unfold ilog2
      omega
    rcases ilog2_lt_of_lt_pow n _ hn with h1 | h1
    · omega
    · subst h1
      have : ilog2 0 = 0 := rfl
      omega
  unfold roundToDouble
  simp only
  set s0 : Int := 53 + (ilog2 d : Int) - (ilog2 n : Int) with hs0
  set s : Int := if (scale2 n d s0).1 / (scale2 n d s0).2 < 2 ^ 53 then s0 else s0 - 1
    with hs
  have hs_nonneg : 0 ≤ s := by
    rw [hs]
    split_ifs <;> omega
  refine ⟨by omega, ?_⟩
  have hsc : scale2 n d s = (n * 2 ^ s.toNat, d) := by
    unfold scale2
    rw [if_pos hs_nonneg]
  rw [hsc]
  simp only [neg_neg]
  apply roundNearestEven_le _ _ _ hd
  calc n * 2 ^ s.toNat ≤ k * d * 2 ^ s.toNat := Nat.mul_le_mul_right _ h
    _ = k * 2 ^ s.toNat * d := by ring

/-- For `0 < c ≤ m` the normalisation gives a percent between 0 and 100. -/
theorem normalize_bounds (c m : Int) (hc : 0 < c) (hcm : c ≤ m) :
    0 ≤ normalize c m ∧ normalize c m ≤ 100 := by
  have hm : 0 < m.toNat := by omega
  have hle : c.toNat ≤ 1 * m.toNat := by omega
  obtain ⟨he1, hm1⟩ := roundToDouble_le c.toNat m.toNat 1 hm (by norm_num) hle
  have hp : (scale2 ((roundToDouble c.toNat m.toNat).m * 100) 1
        (roundToDouble c.toNat m.toNat).e).1 ≤
      100 * (scale2 ((roundToDouble c.toNat m.toNat).m * 100) 1
        (roundToDouble c.toNat m.toNat).e).2 ∧
      0 < (scale2 ((roundToDouble c.toNat m.toNat).m * 100) 1
        (roundToDouble c.toNat m.toNat).e).2 := by
    unfold scale2
    split
    · next h0 =>
      have : (roundToDouble c.toNat m.toNat).e = 0 := by omega
      rw [this] at hm1 ⊢
      simp at hm1 ⊢
      omega
    · next h0 =>
      simp only [one_mul]
      refine ⟨by omega, pow_pos (by norm_num) _⟩
  obtain ⟨he2, hm2⟩ := roundToDouble_le _ _ 100 hp.2 (by norm_num) hp.1
  have htr : ((Dbl.ofDiv c.toNat m.toNat).mul100).trunc ≤ 100 := by
    unfold Dbl.trunc Dbl.mul100 Dbl.ofDiv
    simp only
    split
    · next h0 =>
      have h00 : (roundToDouble
          (scale2 ((roundToDouble c.toNat m.toNat).m * 100) 1
            (roundToDouble c.toNat m.toNat).e).1
          (scale2 ((roundToDouble c.toNat m.toNat).m * 100) 1
            (roundToDouble c.toNat m.toNat).e).2).e = 0 := by omega
      rw [h00] at hm2 ⊢
      simpa using hm2
    · next h0 =>
      apply Nat.div_le_of_le_mul
      exact le_of_le_of_eq hm2 (Nat.mul_comm _ _)
  unfold normalize Dbl.toInt32
  rw [if_pos (by omega)]
  omega

/-! ## A single description, and the running maximum -/

theorem counted_of_battery (d : PowerSourceDescription) (hp : d.isPresent ≠ some false)
    (hk : d.powerSourceState = some PowerSourceState.batteryPower) :
    counted d = true ∧ isAC d = false := by
  simp [counted, isAC, hp, hk]

theorem counted_of_ac (d : PowerSourceDescription) (hp : d.isPresent ≠ some false)
    (hk : d.powerSourceState = some PowerSourceState.acPower) :
    counted d = true ∧ isAC d = true := by
  simp [counted, isAC, hp, hk]

theorem maxpct_of_pos (d : PowerSourceDescription) (M : Int)
    (hM : d.maxCapacity = some M) (hpos : 0 < M) : maxpct d = M := by
  unfold maxpct
  rw [hM]
  simp [hpos]

theorem pct_of_pos (d : PowerSourceDescription) (M C : Int)
    (hM : d.maxCapacity = some M) (hMpos : 0 < M)
    (hC : d.currentCapacity = some C) (hCpos : 0 < C) :
    pct d = if normalize C M > 100 then 100 else normalize C M := by
  unfold pct
  rw [hC, maxpct_of_pos d M hM hMpos]
  simp [hCpos, hMpos]

theorem floatOfInt_of_small (i : Int) (h0 : 0 ≤ i) (h1 : i ≤ 100) : floatOfInt i = i := by
  unfold floatOfInt roundToFloatNat
  rw [if_pos h0, if_pos (by omega)]
  omega

theorem run_seconds_mono (ds : List PowerSourceDescription) (a : Accumulator) :
    a.seconds ≤ (run ds a).seconds := by
  induction ds generalizing a with
  | nil => simp [run_nil]
  | cons d ds ih =>
    rw [run_cons]
    refine le_trans ?_ (ih _)
    rw [checkps_seconds]
    split <;> omega

theorem run_seconds_ge_of_mem (ds : List PowerSourceDescription) (a : Accumulator)
    (d : PowerSourceDescription) (hd : d ∈ ds) (hc : counted d = true) :
    toU64 (secs d (isAC d)) ≤ (run ds a).seconds := by
  induction ds generalizing a with
  | nil => simp at hd
  | cons e ds ih =>
    rw [run_cons]
    rcases List.mem_cons.mp hd with h | h
    · subst h
      refine le_trans ?_ (run_seconds_mono ds _)
      rw [checkps_seconds]
      split
      · exact le_rfl
      · next hn =>
        have hle : ¬ toU64 (secs d (isAC d)) > a.seconds := fun hgt => hn ⟨hc, hgt⟩
        omega
    · exact ih _ h

theorem charge_eq_true_iff (d : PowerSourceDescription) :
    charge d = true ↔ d.isCharging = some true := by
  unfold charge
  cases d.isCharging with
  | none => simp
  | some b => cases b <;> simp

/-- While a charging AC description `ac` reporting `T` minutes is the only
one that can reach `60 * T` seconds, the running seconds stay at most `60 * T`
and the charging flag is set once they reach it. -/
theorem run_leader (ds : List PowerSourceDescription) (a : Accumulator)
    (ac : PowerSourceDescription) (T : Int)
    (hack : ac.powerSourceState = some PowerSourceState.acPower)
    (hacc : charge ac = true)
    (hT : ac.timeToEmpty = some T) (hTpos : 0 < T) (hfit : 60 * T < 2 ^ 31)
    (hall : ∀ d ∈ ds, counted d = true →
      d = ac ∨ ∃ t : Int, d.timeToEmpty = some t ∧ 0 < t ∧ t < T)
    (ha : (a.seconds : Int) ≤ 60 * T ∧ ((a.seconds : Int) = 60 * T → a.charging = true)) :
    ((run ds a).seconds : Int) ≤ 60 * T ∧
      (((run ds a).seconds : Int) = 60 * T → (run ds a).charging = true) := by
  induction ds generalizing a with
  | nil => simpa [run_nil] using ha
  | cons d ds ih =>
    rw [run_cons]
    apply ih _ (fun e he hc => hall e (List.mem_cons_of_mem d he) hc)
    rw [checkps_seconds, checkps_charging]
    split
    · next h =>
      rcases hall d (List.mem_cons_self d ds) h.1 with hd | ⟨t, ht, htpos, hlt⟩
      · subst hd
        have hi : isAC d = true := by simp [isAC, hack]
        rw [hi, secs_of_known d true T hT hTpos hfit]
        have hu := toU64_of_nonneg (60 * T) (by omega) (by omega)
        exact ⟨by omega, fun _ => hacc⟩
      · rw [secs_of_known d (isAC d) t ht htpos (by omega)]
        have hu := toU64_of_nonneg (60 * t) (by omega) (by omega)
        exact ⟨by omega, fun h0 => by omega⟩
    · exact ha

/-! ## Descriptions that are not selected -/

/-- A description whose `secs` does not exceed the running seconds changes
neither the seconds, nor the percent, nor the charging flag. -/
theorem checkps_not_selected (d : PowerSourceDescription) (a : Accumulator)
    (h : counted d = true → toU64 (secs d (isAC d)) ≤ a.seconds) :
    (checkps d a).seconds = a.seconds ∧ (checkps d a).percent = a.percent ∧
      (checkps d a).charging = a.charging := by
  have hn : ¬ (counted d = true ∧ toU64 (secs d (isAC d)) > a.seconds) := by
    rintro ⟨hc, hgt⟩
    have := h hc
    omega
  rw [checkps_seconds, checkps_percent, checkps_charging, if_neg hn, if_neg hn, if_neg hn]
  exact ⟨rfl, rfl, rfl⟩

theorem run_not_selected (ds : List PowerSourceDescription) (a : Accumulator)
    (h : ∀ d ∈ ds, counted d = true → toU64 (secs d (isAC d)) ≤ a.seconds) :
    (run ds a).seconds = a.seconds ∧ (run ds a).percent = a.percent ∧
      (run ds a).charging = a.charging := by
  induction ds generalizing a with
  | nil => exact ⟨rfl, rfl, rfl⟩
  | cons d ds ih =>
    rw [run_cons]
    obtain ⟨h1, h2, h3⟩ := checkps_not_selected d a (h d (List.mem_cons_self d ds))
    have hrest := ih (checkps d a) (fun e he hc => by
      rw [h1]
      exact h e (List.mem_cons_of_mem d he) hc)
    rw [hrest.1, hrest.2.1, hrest.2.2, h1, h2, h3]
    exact ⟨rfl, rfl, rfl⟩

theorem run_seconds_lt (ds : List PowerSourceDescription) (a : Accumulator) (B : Nat)
    (h : ∀ d ∈ ds, counted d = true → toU64 (secs d (isAC d)) < B) (ha : a.seconds < B) :
    (run ds a).seconds < B := by
  induction ds generalizing a with
  | nil => simpa [run_nil] using ha
  | cons d ds ih =>
    rw [run_cons]
    apply ih _ (fun e he hc => h e (List.mem_cons_of_mem d he) hc)
    rw [checkps_seconds]
    split
    · next hs => exact h d (List.mem_cons_self d ds) hs.1
    · exact ha

/-- A description whose `secs` exceeds the running seconds is selected. -/
theorem checkps_selected (d : PowerSourceDescription) (a : Accumulator)
    (hc : counted d = true) (h : a.seconds < toU64 (secs d (isAC d))) :
    (checkps d a).seconds = toU64 (secs d (isAC d)) ∧
      (checkps d a).percent = floatOfInt (pct d) ∧
      (checkps d a).charging = charge d := by
  have hy : counted d = true ∧ toU64 (secs d (isAC d)) > a.seconds := ⟨hc, h⟩
  rw [checkps_seconds, checkps_percent, checkps_charging, if_pos hy, if_pos hy, if_pos hy]
  exact ⟨rfl, rfl, rfl⟩

/-! ## The running seconds as a maximum -/

theorem maxSeconds_cons (d : PowerSourceDescription) (ds : List PowerSourceDescription) :
    maxSeconds (d :: ds) =
      if counted d = true then max (toU64 (secs d (isAC d))) (maxSeconds ds)
      else maxSeconds ds := by
  unfold maxSeconds
  cases hc : counted d <;> simp [List.filter_cons, hc]

theorem run_seconds_eq_max (ds : List PowerSourceDescription) (a : Accumulator) :
    (run ds a).seconds = max a.seconds (maxSeconds ds) := by
  induction ds generalizing a with
  | nil => simp [run_nil, maxSeconds]
  | cons d ds ih =>
    rw [run_cons, ih, checkps_seconds, maxSeconds_cons]
    cases hc : counted d
    · simp
    · simp only [true_and, if_true]
      split <;> omega

theorem maxSeconds_perm (ds1 ds2 : List PowerSourceDescription) (h : ds1.Perm ds2) :
    maxSeconds ds1 = maxSeconds ds2 := by
  unfold maxSeconds
  apply List.Perm.foldr_eq' ((h.filter counted).map _)
  intro x _ y _ z
  omega

/-! ## The range of `secs` -/

theorem wrapInt32_range (v : Int) : -(2 ^ 31) ≤ wrapInt32 v ∧ wrapInt32 v < 2 ^ 31 := by
  unfold wrapInt32
  omega

theorem secs_of_none (d : PowerSourceDescription) (ac : Bool) (h : d.timeToEmpty = none) :
    secs d ac = -1 := by
  unfold secs
  rw [h]

/-- The local `secs` is an `int` when the reported time is an `SInt32`. -/
theorem secs_range (d : PowerSourceDescription) (ac : Bool)
    (h : ∀ v : Int, d.timeToEmpty = some v → -(2 ^ 31) ≤ v ∧ v < 2 ^ 31) :
    -(2 ^ 31) ≤ secs d ac ∧ secs d ac < 2 ^ 31 := by
  cases ht : d.timeToEmpty with
  | none =>
    rw [secs_of_none d ac ht]
    exact ⟨by decide, by decide⟩
  | some v =>
    have hv := h v ht
    have hw := wrapInt32_range (v * 60)
    have hw1 := wrapInt32_range (-1 * 60)
    unfold secs
    rw [ht]
    simp only
    split_ifs <;> omega

theorem toU64_lt_max (s : Int) (hlo : -(2 ^ 31) ≤ s) (hhi : s < 2 ^ 31) (hne : s ≠ -1) :
    toU64 s < 2 ^ 64 - 1 := by
  unfold toU64
  omega

/-- The accumulator after a prefix `xs` in which no description reaches `B`
seconds, a description `d` that reports `B`, and a suffix `ys` in which no
description exceeds `B`: the seconds, percent and charging flag are those
of `d`. -/
theorem run_first_maximal (xs ys : List PowerSourceDescription)
    (d : PowerSourceDescription) (hc : counted d = true)
    (hxs : ∀ e ∈ xs, counted e = true → toU64 (secs e (isAC e)) < toU64 (secs d (isAC d)))
    (hys : ∀ e ∈ ys, counted e = true → toU64 (secs e (isAC e)) ≤ toU64 (secs d (isAC d)))
    (hpos : 0 < toU64 (secs d (isAC d))) :
    (run (xs ++ d :: ys) initial).seconds = toU64 (secs d (isAC d)) ∧
      (run (xs ++ d :: ys) initial).percent = floatOfInt (pct d) ∧
      (run (xs ++ d :: ys) initial).charging = charge d := by
  have hpre := run_seconds_lt xs initial _ hxs hpos
  obtain ⟨h1, h2, h3⟩ := checkps_selected d (run xs initial) hc hpre
  have hrest := run_not_selected ys (checkps d (run xs initial)) (fun e he hce => by
    rw [h1]
    exact hys e he hce)
  rw [run_append, run_cons, hrest.1, hrest.2.1, hrest.2.2, h1, h2, h3]
  exact ⟨rfl, rfl, rfl⟩

/-! ## Accuracy of the normalised percent -/

/-- Rounding to nearest is within one half of the fraction. -/
theorem roundNearestEven_near (n d : Nat) (hd : 0 < d) :
    2 * (roundNearestEven n d * d) ≤ 2 * n + d ∧
      2 * n ≤ 2 * (roundNearestEven n d * d) + d := by
  have hdm := Nat.div_add_mod n d
  have hlt := Nat.mod_lt n hd
  have hcomm : n / d * d = d * (n / d) := Nat.mul_comm _ _
  unfold roundNearestEven
  simp only
  split_ifs
  · rw [hcomm]
    omega
  · rw [Nat.add_mul, hcomm]
    omega
  · rw [hcomm]
    omega
  · rw [Nat.add_mul, hcomm]
    omega

/-- The significand and exponent that `roundToDouble` returns for a fraction
below `2 ^ 52`: the exponent is `-s` with `s` a natural number, the
significand is within one half of `n * 2 ^ s / d`, and that scaled fraction is
at least `2 ^ 52`. -/
theorem roundToDouble_spec (n d : Nat) (hn : 0 < n) (hd : 0 < d) (h : n < 2 ^ 52 * d) :
    ∃ s : Nat, (roundToDouble n d).e = -(s : Int) ∧
      2 * ((roundToDouble n d).m * d) ≤ 2 * (n * 2 ^ s) + d ∧
      2 * (n * 2 ^ s) ≤ 2 * ((roundToDouble n d).m * d) + d ∧
      2 ^ 52 * d ≤ n * 2 ^ s := by
  obtain ⟨ha1, ha2⟩ := log2Fuel_spec n n le_rfl hn
  obtain ⟨hb1, hb2⟩ := log2Fuel_spec d d le_rfl hd
  have hab : ilog2 n ≤ 52 + ilog2 d := by
    have h1 : n < 2 ^ (ilog2 d + 53) := by
      have : 2 ^ (ilog2 d + 53) = 2 ^ 52 * 2 ^ (ilog2 d + 1) := by
        rw [← pow_add]
        congr 1
        omega
      rw [this]
      exact lt_of_lt_of_le h (Nat.mul_le_mul_left _ (le_of_lt hb2))
    rcases ilog2_lt_of_lt_pow n _ h1 with h2 | h2
    · omega
    · omega
  -- the first candidate exponent
  have hbig : 2 ^ 52 * d ≤ n * 2 ^ (53 + ilog2 d - ilog2 n) := by
    have e1 : 2 ^ ilog2 n * 2 ^ (53 + ilog2 d - ilog2 n) = 2 ^ 52 * 2 ^ (ilog2 d + 1) := by
      rw [← pow_add, ← pow_add]
      congr 1
      omega
    calc 2 ^ 52 * d ≤ 2 ^ 52 * 2 ^ (ilog2 d + 1) := Nat.mul_le_mul_left _ (le_of_lt hb2)
      _ = 2 ^ ilog2 n * 2 ^ (53 + ilog2 d - ilog2 n) := e1.symm
      _ ≤ n * 2 ^ (53 + ilog2 d - ilog2 n) := Nat.mul_le_mul_right _ ha1
  have hs0 : (53 + (ilog2 d : Int) - (ilog2 n : Int)) =
      ((53 + ilog2 d - ilog2 n : Nat) : Int) := by omega
  unfold roundToDouble
  simp only
  rw [hs0]
  have hsc0 : scale2 n d ((53 + ilog2 d - ilog2 n : Nat) : Int) =
      (n * 2 ^ (53 + ilog2 d - ilog2 n), d) := by
    unfold scale2
    rw [if_pos (by omega), Int.toNat_ofNat]
  rw [hsc0]
  simp only
  split
  · next hlt =>
    refine ⟨53 + ilog2 d - ilog2 n, by omega, ?_⟩
    rw [hsc0]
    simp only
    obtain ⟨r1, r2⟩ := roundNearestEven_near (n * 2 ^ (53 + ilog2 d - ilog2 n)) d hd
    exact ⟨r1, r2, hbig⟩
  · next hge =>
    have hge2 : 2 ^ 53 * d ≤ n * 2 ^ (53 + ilog2 d - ilog2 n) := by
      have := Nat.div_mul_le_self (n * 2 ^ (53 + ilog2 d - ilog2 n)) d
      have h3 : 2 ^ 53 * d ≤ n * 2 ^ (53 + ilog2 d - ilog2 n) / d * d :=
        Nat.mul_le_mul_right d (by omega)
      omega
    have hsplit : 2 ^ (53 + ilog2 d - ilog2 n) = 2 ^ (53 + ilog2 d - ilog2 n - 1) * 2 := by
      rw [← pow_succ]
      congr 1
      omega
    have hs1 : ((53 + ilog2 d - ilog2 n : Nat) : Int) - 1 =
        ((53 + ilog2 d - ilog2 n - 1 : Nat) : Int) := by omega
    refine ⟨53 + ilog2 d - ilog2 n - 1, by omega, ?_⟩
    rw [hs1]
    have hsc1 : scale2 n d ((53 + ilog2 d - ilog2 n - 1 : Nat) : Int) =
        (n * 2 ^ (53 + ilog2 d - ilog2 n - 1), d) := by
      unfold scale2
      rw [if_pos (by omega), Int.toNat_ofNat]
    rw [hsc1]
    simp only
    obtain ⟨r1, r2⟩ := roundNearestEven_near (n * 2 ^ (53 + ilog2 d - ilog2 n - 1)) d hd
    refine ⟨r1, r2, ?_⟩
    rw [hsplit, ← Nat.mul_assoc] at hge2
    have e53 : (2 : Nat) ^ 53 = 2 ^ 52 * 2 := by norm_num
    rw [e53] at hge2
    have : 2 ^ 52 * d * 2 ≤ n * 2 ^ (53 + ilog2 d - ilog2 n - 1) * 2 := by
      calc 2 ^ 52 * d * 2 = 2 ^ 52 * 2 * d := by ring
        _ ≤ n * 2 ^ (53 + ilog2 d - ilog2 n - 1) * 2 := hge2
    omega

/-- Relative accuracy over the rationals: a significand within one half of a
scaled fraction that is at least `2 ^ 52` is within `2 ^ (-53)` of it,
relatively. -/
theorem rat_rel (n d x A : ℚ) (hd : 0 < d) (hA : 0 < A)
    (hu : 2 * (x * d) ≤ 2 * (n * A) + d) (hl : 2 * (n * A) ≤ 2 * (x * d) + d)
    (hn : 2 ^ 52 * d ≤ n * A) :
    x / A ≤ n / d * (1 + 1 / 2 ^ 53) ∧ n / d * (1 - 1 / 2 ^ 53) ≤ x / A := by
  constructor
  · rw [div_le_iff₀ hA]
    have e : n / d * (1 + 1 / 2 ^ 53) * A - x =
        ((2 ^ 53 + 1) * (n * A) - 2 ^ 53 * (x * d)) / (2 ^ 53 * d) := by
      field_simp
      ring
    have h0 : 0 ≤ n / d * (1 + 1 / 2 ^ 53) * A - x := by
      rw [e]
      apply div_nonneg
      · linarith
      · positivity
    linarith
  · rw [le_div_iff₀ hA]
    have e : x - n / d * (1 - 1 / 2 ^ 53) * A =
        (2 ^ 53 * (x * d) - (2 ^ 53 - 1) * (n * A)) / (2 ^ 53 * d) := by
      field_simp
      ring
    have h0 : 0 ≤ x - n / d * (1 - 1 / 2 ^ 53) * A := by
      rw [e]
      apply div_nonneg
      · linarith
      · positivity
    linarith

/-- The truncated `double` product `c / m * 100.0` of two positive `int`s is
the integer part of `100 * c / m` or one less. -/
theorem trunc_mul100_bounds (c m : Nat) (hc : 0 < c) (hc31 : c < 2 ^ 31)
    (hm : 0 < m) (hm31 : m < 2 ^ 31) :
    ((Dbl.ofDiv c m).mul100).trunc * m ≤ 100 * c ∧
      100 * c < (((Dbl.ofDiv c m).mul100).trunc + 2) * m := by
  have hcm : c < 2 ^ 52 * m := by
    have : 2 ^ 52 * 1 ≤ 2 ^ 52 * m := Nat.mul_le_mul_left _ hm
    omega
  obtain ⟨s1, he1, u1, l1, n1⟩ := roundToDouble_spec c m hc hm hcm
  have hA : 0 < 2 ^ s1 := pow_pos (by norm_num) s1
  have hcA : c * 2 ^ s1 ≤ 2 ^ 31 * 2 ^ s1 := Nat.mul_le_mul_right _ (le_of_lt hc31)
  have hs1 : 1 ≤ s1 := by
    by_contra h0
    have : s1 = 0 := by omega
    subst this
    simp only [pow_zero, mul_one] at n1
    have : 2 ^ 52 * 1 ≤ 2 ^ 52 * m := Nat.mul_le_mul_left _ hm
    omega
  have hm1pos : 0 < (roundToDouble c m).m := by
    by_contra h0
    have h00 : (roundToDouble c m).m = 0 := by omega
    rw [h00] at l1
    omega
  have hm1le : (roundToDouble c m).m ≤ (roundToDouble c m).m * m :=
    Nat.le_mul_of_pos_right _ hm
  -- the product
  have hp : scale2 ((roundToDouble c m).m * 100) 1 (roundToDouble c m).e =
      ((roundToDouble c m).m * 100, 1 * 2 ^ s1) := by
    unfold scale2
    rw [he1, if_neg (by omega)]
    simp
  have hN2 : (roundToDouble c m).m * 100 < 2 ^ 52 * (1 * 2 ^ s1) := by omega
  obtain ⟨s2, he2, u2, l2, n2⟩ := roundToDouble_spec ((roundToDouble c m).m * 100)
    (1 * 2 ^ s1) (by omega) (by omega) hN2
  have hB : 0 < 2 ^ s2 := pow_pos (by norm_num) s2
  have htr : ((Dbl.ofDiv c m).mul100).trunc =
      (roundToDouble ((roundToDouble c m).m * 100) (1 * 2 ^ s1)).m / 2 ^ s2 := by
    unfold Dbl.trunc Dbl.mul100 Dbl.ofDiv
    simp only [hp, he2]
    by_cases h0 : s2 = 0
    · subst h0
      simp
    · rw [if_neg (by omega)]
      simp
  rw [htr]
  set m1 := (roundToDouble c m).m with hm1
  set m2 := (roundToDouble (m1 * 100) (1 * 2 ^ s1)).m with hm2
  have t1 : m2 / 2 ^ s2 * 2 ^ s2 ≤ m2 := Nat.div_mul_le_self m2 (2 ^ s2)
  have t2 : m2 < (m2 / 2 ^ s2 + 1) * 2 ^ s2 := by
    have h1 := Nat.div_add_mod m2 (2 ^ s2)
    have h2 := Nat.mod_lt m2 hB
    rw [Nat.add_mul, Nat.mul_comm (m2 / 2 ^ s2) (2 ^ s2)]
    omega
  set T := m2 / 2 ^ s2 with hT
  -- the same facts over the rationals
  have hmQ : (0 : ℚ) < (m : ℚ) := by exact_mod_cast hm
  have hAQ : (0 : ℚ) < (2 : ℚ) ^ s1 := by positivity
  have hBQ : (0 : ℚ) < (2 : ℚ) ^ s2 := by positivity
  have hcQ : (c : ℚ) < 2 ^ 31 := by exact_mod_cast hc31
  have hc0 : (0 : ℚ) < (c : ℚ) := by exact_mod_cast hc
  have hm1Q : (1 : ℚ) ≤ (m : ℚ) := by exact_mod_cast hm
  have r1 := rat_rel (c : ℚ) (m : ℚ) (m1 : ℚ) ((2 : ℚ) ^ s1) hmQ hAQ
    (by exact_mod_cast u1) (by exact_mod_cast l1) (by exact_mod_cast n1)
  have u2' : (2 : ℚ) * ((m2 : ℚ) * (2 : ℚ) ^ s1) ≤
      2 * ((m1 : ℚ) * 100 * (2 : ℚ) ^ s2) + (2 : ℚ) ^ s1 := by
    have h := u2
    rw [Nat.one_mul] at h
    exact_mod_cast h
  have l2' : (2 : ℚ) * ((m1 : ℚ) * 100 * (2 : ℚ) ^ s2) ≤
      2 * ((m2 : ℚ) * (2 : ℚ) ^ s1) + (2 : ℚ) ^ s1 := by
    have h := l2
    rw [Nat.one_mul] at h
    exact_mod_cast h
  have n2' : (2 : ℚ) ^ 52 * (2 : ℚ) ^ s1 ≤ (m1 : ℚ) * 100 * (2 : ℚ) ^ s2 := by
    have h := n2
    rw [Nat.one_mul] at h
    exact_mod_cast h
  have r2 := rat_rel ((m1 : ℚ) * 100) ((2 : ℚ) ^ s1) (m2 : ℚ) ((2 : ℚ) ^ s2) hAQ hBQ
    u2' l2' n2'
  have e100 : (m1 : ℚ) * 100 / (2 : ℚ) ^ s1 = 100 * ((m1 : ℚ) / (2 : ℚ) ^ s1) := by ring
  rw [e100] at r2
  have hTle : (T : ℚ) ≤ (m2 : ℚ) / (2 : ℚ) ^ s2 := by
    rw [le_div_iff₀ hBQ]
    exact_mod_cast t1
  have hTlt : (m2 : ℚ) / (2 : ℚ) ^ s2 < (T : ℚ) + 1 := by
    rw [div_lt_iff₀ hBQ]
    exact_mod_cast t2
  have hrm : (c : ℚ) / (m : ℚ) * (m : ℚ) = (c : ℚ) := div_mul_cancel₀ _ hmQ.ne'
  obtain ⟨r1u, r1l⟩ := r1
  obtain ⟨r2u, r2l⟩ := r2
  generalize (m2 : ℚ) / (2 : ℚ) ^ s2 = x2 at r2u r2l hTle hTlt
  generalize (m1 : ℚ) / (2 : ℚ) ^ s1 = x1 at r1u r1l r2u r2l
  generalize hr : (c : ℚ) / (m : ℚ) = r at r1u r1l hrm
  constructor
  · have h1 : (T : ℚ) ≤ 100 * r * (1 + 1 / 2 ^ 53) ^ 2 := by linarith
    have h2 : (T : ℚ) * m ≤ 100 * c * (1 + 1 / 2 ^ 53) ^ 2 := by
      calc (T : ℚ) * m ≤ 100 * r * (1 + 1 / 2 ^ 53) ^ 2 * m :=
            mul_le_mul_of_nonneg_right h1 hmQ.le
        _ = 100 * (r * m) * (1 + 1 / 2 ^ 53) ^ 2 := by ring
        _ = 100 * c * (1 + 1 / 2 ^ 53) ^ 2 := by rw [hrm]
    have h3 : (T : ℚ) * m < 100 * c + 1 := by linarith
    have h4 : T * m < 100 * c + 1 := by exact_mod_cast h3
    omega
  · have g1 : 100 * r * (1 - 1 / 2 ^ 53) ^ 2 < (T : ℚ) + 1 := by linarith
    have g2 : 100 * c * (1 - 1 / 2 ^ 53) ^ 2 < ((T : ℚ) + 1) * m := by
      calc 100 * (c : ℚ) * (1 - 1 / 2 ^ 53) ^ 2
          = 100 * (r * m) * (1 - 1 / 2 ^ 53) ^ 2 := by rw [hrm]
        _ = 100 * r * (1 - 1 / 2 ^ 53) ^ 2 * m := by ring
        _ < ((T : ℚ) + 1) * m := mul_lt_mul_of_pos_right g1 hmQ
    have g3 : (100 : ℚ) * c < ((T : ℚ) + 2) * m := by linarith
    exact_mod_cast g3

/-- For positive `int`s `c` and `m` with `100 * c / m` in the range of an
`int`, the normalisation is the integer part of `100 * c / m` or one less. -/
theorem normalize_floor (c m : Int) (hc : 0 < c) (hc31 : c < 2 ^ 31) (hm : 0 < m)
    (hm31 : m < 2 ^ 31) (hfit : 100 * c < 2 ^ 31 * m) :
    100 * c / m - 1 ≤ normalize c m ∧ normalize c m ≤ 100 * c / m := by
  obtain ⟨hu, hl⟩ := trunc_mul100_bounds c.toNat m.toNat (by omega) (by omega) (by omega)
    (by omega)
  have hcn : ((c.toNat : Nat) : Int) = c := Int.toNat_of_nonneg (le_of_lt hc)
  have hmn : ((m.toNat : Nat) : Int) = m := Int.toNat_of_nonneg (le_of_lt hm)
  have huZ : (((Dbl.ofDiv c.toNat m.toNat).mul100).trunc : Int) * m ≤ 100 * c := by
    have : ((((Dbl.ofDiv c.toNat m.toNat).mul100).trunc * m.toNat : Nat) : Int) ≤
        ((100 * c.toNat : Nat) : Int) := by exact_mod_cast hu
    push_cast at this
    rw [hcn, hmn] at this
    exact this
  have hlZ : 100 * c < ((((Dbl.ofDiv c.toNat m.toNat).mul100).trunc : Int) + 2) * m := by
    have : ((100 * c.toNat : Nat) : Int) <
        (((((Dbl.ofDiv c.toNat m.toNat).mul100).trunc + 2) * m.toNat : Nat) : Int) := by
      exact_mod_cast hl
    push_cast at this
    rw [hcn, hmn] at this
    exact this
  have h1 : (((Dbl.ofDiv c.toNat m.toNat).mul100).trunc : Int) ≤ 100 * c / m :=
    (Int.le_ediv_iff_mul_le hm).mpr huZ
  have h2 : 100 * c / m < (((Dbl.ofDiv c.toNat m.toNat).mul100).trunc : Int) + 2 :=
    Int.ediv_lt_of_lt_mul hm hlZ
  have h3 : 100 * c / m < 2 ^ 31 := Int.ediv_lt_of_lt_mul hm hfit
  unfold normalize Dbl.toInt32
  rw [if_pos (by omega)]
  omega

/-! ## The claims -/

/-- C1. Greater time wins: for two present battery descriptions with known
positive times-to-empty `t1` and `t2` minutes (with `60 * t` in the range of
an `int`), in either order and whatever their capacities and charging flags,
`Query` returns `seconds = 60 * max t1 t2`. -/
theorem greater_time_wins (d1 d2 : PowerSourceDescription) (t1 t2 : Int)
    (hp1 : d1.isPresent ≠ some false)
    (hk1 : d1.powerSourceState = some PowerSourceState.batteryPower)
    (hp2 : d2.isPresent ≠ some false)
    (hk2 : d2.powerSourceState = some PowerSourceState.batteryPower)
    (ht1 : d1.timeToEmpty = some t1) (ht2 : d2.timeToEmpty = some t2)
    (h1 : 0 < t1) (h2 : 0 < t2) (hf1 : 60 * t1 < 2 ^ 31) (hf2 : 60 * t2 < 2 ^ 31) :
    ((Query [d1, d2]).seconds : Int) = 60 * max t1 t2 ∧
      ((Query [d2, d1]).seconds : Int) = 60 * max t1 t2 := by
  refine ⟨seconds_of_two_known d1 d2 t1 t2 hp1 hk1 hp2 hk2 ht1 ht2 h1 h2 hf1 hf2, ?_⟩
  rw [max_comm]
  exact seconds_of_two_known d2 d1 t2 t1 hp2 hk2 hp1 hk1 ht2 ht1 h2 h1 hf2 hf1

/-- C1 at two batteries reporting 100 and 50 minutes, with different
capacities and charging flags: 6000 seconds in both orders. -/
theorem greater_time_wins_witness :
    ((Query [⟨some true, some PowerSourceState.batteryPower, some false, some 100,
              some 100, some 20⟩,
            ⟨some true, some PowerSourceState.batteryPower, some true, some 80,
              some 50, some 70⟩]).seconds : Int) = 60 * max 100 50 ∧
      ((Query [⟨some true, some PowerSourceState.batteryPower, some true, some 80,
              some 50, some 70⟩,
            ⟨some true, some PowerSourceState.batteryPower, some false, some 100,
              some 100, some 20⟩]).seconds : Int) = 60 * max 100 50 :=
  greater_time_wins _ _ 100 50 (by decide) rfl (by decide) rfl rfl rfl
    (by decide) (by decide) (by decide) (by decide)

/-- C2 (the code departs from the claim). Two present battery descriptions
without a time-to-empty, capacity 100, charged to 40 and to 80: `Query`
returns the percent of whichever comes first, so 40 when the 40-percent
battery is first, although the other reports 80. -/
theorem percent_fallback_first_wins :
    (Query [⟨some true, some PowerSourceState.batteryPower, some false, some 100,
              none, some 40⟩,
            ⟨some true, some PowerSourceState.batteryPower, some false, some 100,
              none, some 80⟩]).percent = 40 ∧
      (Query [⟨some true, some PowerSourceState.batteryPower, some false, some 100,
              none, some 80⟩,
            ⟨some true, some PowerSourceState.batteryPower, some false, some 100,
              none, some 40⟩]).percent = 80 := by
  decide

/-- C3 (the code departs from the claim). A present battery `A` with 10
minutes left (capacity 50 of 100, not charging) and a present battery `B`
without a time-to-empty (30 of 100, charging): in both orders `Query` returns
the numbers of `B`, seconds `2 ^ 64 - 1`, percent 30 and state CHARGING, not
the 600 seconds and 50 percent of `A`. -/
theorem unknown_time_beats_known :
    Query [⟨some true, some PowerSourceState.batteryPower, some false, some 100,
              some 10, some 50⟩,
            ⟨some true, some PowerSourceState.batteryPower, some true, some 100,
              none, some 30⟩]
        = ⟨State.STATE_CHARGING, 2 ^ 64 - 1, 30⟩ ∧
      Query [⟨some true, some PowerSourceState.batteryPower, some true, some 100,
              none, some 30⟩,
            ⟨some true, some PowerSourceState.batteryPower, some false, some 100,
              some 10, some 50⟩]
        = ⟨State.STATE_CHARGING, 2 ^ 64 - 1, 30⟩ := by
  decide

/-- C4. Single discharging battery: the list of one present, non-charging
battery with capacity 50 of 100 and 120 minutes left gives ON_BATTERY, 7200
seconds, 50 percent; and every list of one present, non-charging battery with
maximum capacity `M > 0`, current capacity `0 < C ≤ M` and `T > 0` minutes
left (`60 * T` in the range of an `int`) gives ON_BATTERY, `60 * T` seconds
and the percent `(int) (C / M * 100.0)` of that battery, which lies between
0 and 100. -/
theorem single_discharging_battery :
    Query [⟨some true, some PowerSourceState.batteryPower, some false, some 100,
        some 120, some 50⟩] = ⟨State.STATE_ON_BATTERY, 7200, 50⟩ ∧
      ∀ (d : PowerSourceDescription) (M C T : Int),
        d.isPresent ≠ some false →
        d.powerSourceState = some PowerSourceState.batteryPower →
        d.isCharging ≠ some true →
        d.maxCapacity = some M → 0 < M →
        d.currentCapacity = some C → 0 < C → C ≤ M →
        d.timeToEmpty = some T → 0 < T → 60 * T < 2 ^ 31 →
        (Query [d]).state = State.STATE_ON_BATTERY ∧
          ((Query [d]).seconds : Int) = 60 * T ∧
          (Query [d]).percent = normalize C M ∧
          0 ≤ normalize C M ∧ normalize C M ≤ 100 := by
  refine ⟨by decide, ?_⟩
  intro d M C T hp hk hnc hM hMpos hC hCpos hCM hT hTpos hfit
  obtain ⟨hcnt, hac⟩ := counted_of_battery d hp hk
  obtain ⟨hn0, hn100⟩ := normalize_bounds C M hCpos hCM
  have hsecs := secs_of_known d false T hT hTpos hfit
  have hu := toU64_of_nonneg (60 * T) (by omega) (by omega)
  have hgt : toU64 (60 * T) > 0 := by omega
  have hpct : pct d = normalize C M := by
    rw [pct_of_pos d M C hM hMpos hC hCpos, if_neg (by omega)]
  have hsee : seesBattery d = true := (seesBattery_iff d).mpr ⟨M, hM, hMpos⟩
  have hch : charge d = false := (charge_eq_false_iff d).mpr hnc
  rw [Query_eq_run, run_cons, run_nil]
  simp only [deriveState, checkps_have_battery, checkps_have_ac, checkps_charging,
    checkps_seconds, checkps_percent, hcnt, hac, hsecs, hsee, hch, hpct, initial, hgt]
  simp only [and_self, if_true]
  exact ⟨by decide, hu, floatOfInt_of_small _ hn0 hn100, hn0, hn100⟩

/-- C4 at a non-charging battery with capacity 50 of 200 and 30 minutes left. -/
theorem single_discharging_battery_witness :
    (Query [⟨some true, some PowerSourceState.batteryPower, some false, some 200,
        some 30, some 50⟩]).state = State.STATE_ON_BATTERY ∧
      ((Query [⟨some true, some PowerSourceState.batteryPower, some false, some 200,
        some 30, some 50⟩]).seconds : Int) = 60 * 30 ∧
      (Query [⟨some true, some PowerSourceState.batteryPower, some false, some 200,
        some 30, some 50⟩]).percent = normalize 50 200 ∧
      0 ≤ normalize 50 200 ∧ normalize 50 200 ≤ 100 :=
  single_discharging_battery.2 _ 200 50 30 (by decide) rfl (by decide) rfl (by decide)
    rfl (by decide) (by decide) rfl (by decide) (by decide)

/-- C5. NO_BATTERY exactly when no battery was seen: the state `Query`
returns is NO_BATTERY if and only if no description that is present and of
kind AC or battery reports a maximum capacity above zero (so for the empty
list too); in every other case it is CHARGING, CHARGED or ON_BATTERY. -/
theorem no_battery_iff_none_seen (ds : List PowerSourceDescription) :
    ((Query ds).state = State.STATE_NO_BATTERY ↔
        ¬ ∃ d ∈ ds, d.isPresent ≠ some false ∧
            (d.powerSourceState = some PowerSourceState.acPower ∨
              d.powerSourceState = some PowerSourceState.batteryPower) ∧
            ∃ M : Int, d.maxCapacity = some M ∧ 0 < M) ∧
      ((Query ds).state ≠ State.STATE_NO_BATTERY →
        (Query ds).state = State.STATE_CHARGING ∨
          (Query ds).state = State.STATE_CHARGED ∨
          (Query ds).state = State.STATE_ON_BATTERY) ∧
      (Query []).state = State.STATE_NO_BATTERY := by
  have hb := run_have_battery ds initial
  have hany : ds.any (fun d => counted d && seesBattery d) = true ↔
      ∃ d ∈ ds, d.isPresent ≠ some false ∧
        (d.powerSourceState = some PowerSourceState.acPower ∨
          d.powerSourceState = some PowerSourceState.batteryPower) ∧
        ∃ M : Int, d.maxCapacity = some M ∧ 0 < M := by
    rw [List.any_eq_true]
    constructor
    · rintro ⟨d, hd, h⟩
      rw [Bool.and_eq_true, counted_iff, seesBattery_iff] at h
      exact ⟨d, hd, h.1.1, h.1.2, h.2⟩
    · rintro ⟨d, hd, h1, h2, h3⟩
      refine ⟨d, hd, ?_⟩
      rw [Bool.and_eq_true, counted_iff, seesBattery_iff]
      exact ⟨⟨h1, h2⟩, h3⟩
  have hinit : initial.have_battery = false := rfl
  rw [hinit, Bool.false_or] at hb
  refine ⟨?_, ?_, by decide⟩
  · rw [← hany, Query_eq_run]
    simp only [deriveState]
    cases hv : (run ds initial).have_battery
    · rw [← hb, hv]
      simp
    · rw [← hb, hv]
      cases (run ds initial).charging <;> cases (run ds initial).have_ac <;> simp
  · rw [Query_eq_run]
    simp only [deriveState]
    cases (run ds initial).have_battery <;> cases (run ds initial).charging <;>
      cases (run ds initial).have_ac <;> simp

/-- C6 as stated fails: an AC description that is charging and reports 10
minutes, with a non-charging battery (capacity 100) that reports 100 minutes.
The battery is selected in both orders, so the state is CHARGED. -/
theorem charging_ac_not_selected :
    (Query [⟨some true, some PowerSourceState.acPower, some true, some 100,
              some 10, some 50⟩,
            ⟨some true, some PowerSourceState.batteryPower, some false, some 100,
              some 100, some 50⟩]).state = State.STATE_CHARGED ∧
      (Query [⟨some true, some PowerSourceState.batteryPower, some false, some 100,
              some 100, some 50⟩,
            ⟨some true, some PowerSourceState.acPower, some true, some 100,
              some 10, some 50⟩]).state = State.STATE_CHARGED := by
  decide

/-- C6, amended. For a list that contains a present AC description `ac` that
is charging and a present battery `bat` with maximum capacity above zero, in
whatever order and with whatever capacities, the state is CHARGING or CHARGED;
and it is CHARGING when `ac` reports the most time: a known `T > 0` minutes
(`60 * T` in the range of an `int`), every other present AC or battery
description of the list reporting a known positive time below `T`. -/
theorem charging_when_ac_has_most_time (ds : List PowerSourceDescription)
    (ac bat : PowerSourceDescription) (M : Int)
    (hac : ac ∈ ds) (hacp : ac.isPresent ≠ some false)
    (hack : ac.powerSourceState = some PowerSourceState.acPower)
    (hacc : ac.isCharging = some true)
    (hbat : bat ∈ ds) (hbatp : bat.isPresent ≠ some false)
    (hbatk : bat.powerSourceState = some PowerSourceState.batteryPower)
    (hM : bat.maxCapacity = some M) (hMpos : 0 < M) :
    ((Query ds).state = State.STATE_CHARGING ∨ (Query ds).state = State.STATE_CHARGED) ∧
      ∀ T : Int, ac.timeToEmpty = some T → 0 < T → 60 * T < 2 ^ 31 →
        (∀ d ∈ ds, d ≠ ac → d.isPresent ≠ some false →
          (d.powerSourceState = some PowerSourceState.acPower ∨
            d.powerSourceState = some PowerSourceState.batteryPower) →
          ∃ t : Int, d.timeToEmpty = some t ∧ 0 < t ∧ t < T) →
        (Query ds).state = State.STATE_CHARGING := by
  obtain ⟨hcac, hiac⟩ := counted_of_ac ac hacp hack
  have hcbat := (counted_of_battery bat hbatp hbatk).1
  have hha : (run ds initial).have_ac = true := by
    rw [run_have_ac]
    simp only [initial, Bool.false_or]
    rw [List.any_eq_true]
    exact ⟨ac, hac, by rw [hcac, hiac]; rfl⟩
  have hhb : (run ds initial).have_battery = true := by
    rw [run_have_battery]
    simp only [initial, Bool.false_or]
    rw [List.any_eq_true]
    exact ⟨bat, hbat, by rw [hcbat, (seesBattery_iff bat).mpr ⟨M, hM, hMpos⟩]; rfl⟩
  rw [Query_eq_run]
  simp only [deriveState, hha, hhb]
  constructor
  · cases (run ds initial).charging <;> simp
  · intro T hT hTpos hfit hall
    have hge := run_seconds_ge_of_mem ds initial ac hac hcac
    rw [hiac, secs_of_known ac true T hT hTpos hfit] at hge
    have hinv := run_leader ds initial ac T hack ((charge_eq_true_iff ac).mpr hacc)
      hT hTpos hfit
      (fun d hd hc => by
        by_cases hda : d = ac
        · exact Or.inl hda
        · exact Or.inr (hall d hd hda ((counted_iff d).mp hc).1 ((counted_iff d).mp hc).2))
      ⟨by simp [initial]; omega, fun h0 => by simp [initial] at h0; omega⟩
    have hu := toU64_of_nonneg (60 * T) (by omega) (by omega)
    have hch : (run ds initial).charging = true := hinv.2 (by omega)
    simp [hch]

/-- C6 amended, at a non-charging battery (capacity 100, 20 minutes) followed
by a charging AC description that reports 30 minutes. -/
theorem charging_when_ac_has_most_time_witness :
    ((Query [⟨some true, some PowerSourceState.batteryPower, some false, some 100, some 20,
            some 40⟩,
          ⟨some true, some PowerSourceState.acPower, some true, none, some 30,
            none⟩]).state = State.STATE_CHARGING ∨
        (Query [⟨some true, some PowerSourceState.batteryPower, some false, some 100,
            some 20, some 40⟩,
          ⟨some true, some PowerSourceState.acPower, some true, none, some 30,
            none⟩]).state = State.STATE_CHARGED) ∧
      (Query [⟨some true, some PowerSourceState.batteryPower, some false, some 100, some 20,
            some 40⟩,
          ⟨some true, some PowerSourceState.acPower, some true, none, some 30,
            none⟩]).state = State.STATE_CHARGING :=
  have h := charging_when_ac_has_most_time
    [⟨some true, some PowerSourceState.batteryPower, some false, some 100, some 20, some 40⟩,
      ⟨some true, some PowerSourceState.acPower, some true, none, some 30, none⟩]
    ⟨some true, some PowerSourceState.acPower, some true, none, some 30, none⟩
    ⟨some true, some PowerSourceState.batteryPower, some false, some 100, some 20, some 40⟩
    100 (List.mem_cons_of_mem _ (List.mem_cons_self _ _)) (by decide) rfl rfl
    (List.mem_cons_self _ _) (by decide) rfl rfl (by decide)
  ⟨h.1, h.2 30 rfl (by decide) (by decide) (by
    intro d hd hne _ _
    rcases List.mem_cons.mp hd with h1 | h1
    · exact ⟨20, by rw [h1], by decide, by decide⟩
    · rcases List.mem_cons.mp h1 with h2 | h2
      · exact absurd h2 hne
      · simp at h2)⟩

/-- C7. On AC and not charging implies CHARGED: when no present description
of the list is charging, some present description is of kind AC and some
present AC or battery description reports a maximum capacity above zero, the
state is CHARGED, for the list in every order. -/
theorem charged_when_on_ac_not_charging (ds : List PowerSourceDescription)
    (hnc : ∀ d ∈ ds, d.isPresent ≠ some false → d.isCharging ≠ some true)
    (hac : ∃ d ∈ ds, d.isPresent ≠ some false ∧
      d.powerSourceState = some PowerSourceState.acPower)
    (hbat : ∃ d ∈ ds, d.isPresent ≠ some false ∧
      (d.powerSourceState = some PowerSourceState.acPower ∨
        d.powerSourceState = some PowerSourceState.batteryPower) ∧
      ∃ M : Int, d.maxCapacity = some M ∧ 0 < M) :
    ∀ ds2 : List PowerSourceDescription, ds2.Perm ds →
      (Query ds2).state = State.STATE_CHARGED := by
  intro ds2 hperm
  have hch : (run ds2 initial).charging = false := by
    apply run_charging_false _ _ _ rfl
    intro d hd hc
    rw [charge_eq_false_iff]
    exact hnc d (hperm.mem_iff.mp hd) ((counted_iff d).mp hc).1
  have hha : (run ds2 initial).have_ac = true := by
    rw [run_have_ac]
    obtain ⟨d, hd, hp, hk⟩ := hac
    have hc : counted d = true := (counted_iff d).mpr ⟨hp, Or.inl hk⟩
    have hi : isAC d = true := by simp [isAC, hk]
    simp only [initial, Bool.false_or]
    rw [List.any_eq_true]
    exact ⟨d, hperm.mem_iff.mpr hd, by rw [hc, hi]; rfl⟩
  have hhb : (run ds2 initial).have_battery = true := by
    rw [run_have_battery]
    obtain ⟨d, hd, hp, hk, hM⟩ := hbat
    have hc : counted d = true := (counted_iff d).mpr ⟨hp, hk⟩
    have hs : seesBattery d = true := (seesBattery_iff d).mpr hM
    simp only [initial, Bool.false_or]
    rw [List.any_eq_true]
    exact ⟨d, hperm.mem_iff.mpr hd, by rw [hc, hs]; rfl⟩
  rw [Query_eq_run]
  simp [deriveState, hch, hha, hhb]

/-- C7 at the list of a non-charging AC description and a non-charging
battery of capacity 100. -/
theorem charged_when_on_ac_not_charging_witness :
    (Query [⟨some true, some PowerSourceState.batteryPower, some false, some 100,
              some 90, some 60⟩,
            ⟨some true, some PowerSourceState.acPower, some false, none,
              some 0, none⟩]).state = State.STATE_CHARGED :=
  charged_when_on_ac_not_charging
    [⟨some true, some PowerSourceState.acPower, some false, none, some 0, none⟩,
      ⟨some true, some PowerSourceState.batteryPower, some false, some 100, some 90, some 60⟩]
    (by decide)
    ⟨_, List.mem_cons_self _ _, by decide, rfl⟩
    ⟨_, List.mem_cons_of_mem _ (List.mem_cons_self _ _), by decide, Or.inr rfl, 100, rfl,
      by decide⟩
    _ (List.Perm.swap _ _ _)

/-- C8. Skipped descriptions are ignored: for a description marked absent, or
whose kind is neither AC nor battery, one `checkps` step leaves the whole
accumulator (`have_ac`, `have_battery`, `charging`, `seconds`, `percent`)
unchanged, and `Query (xs ++ [d] ++ ys) = Query (xs ++ ys)` for all lists. -/
theorem skipped_is_ignored (d : PowerSourceDescription)
    (h : d.isPresent = some false ∨
      (d.powerSourceState ≠ some PowerSourceState.acPower ∧
        d.powerSourceState ≠ some PowerSourceState.batteryPower)) :
    (∀ a : Accumulator, checkps d a = a) ∧
      ∀ xs ys : List PowerSourceDescription, Query (xs ++ [d] ++ ys) = Query (xs ++ ys) := by
  have hstep : ∀ a : Accumulator, checkps d a = a := by
    intro a
    rcases h with h | h
    · exact checkps_of_absent d a h
    · exact checkps_of_other d a h.1 h.2
  refine ⟨hstep, fun xs ys => ?_⟩
  have hrun : ∀ a, run (xs ++ [d] ++ ys) a = run (xs ++ ys) a := by
    intro a
    rw [run_append, run_append, run_append, run_cons, run_nil, hstep]
  rw [Query_eq_run, Query_eq_run, hrun]

/-- C8 at an absent battery with every field set, between a battery and an
AC description. -/
theorem skipped_is_ignored_witness :
    (∀ a : Accumulator,
        checkps ⟨some false, some PowerSourceState.batteryPower, some true, some 100,
          some 500, some 99⟩ a = a) ∧
      ∀ xs ys : List PowerSourceDescription,
        Query (xs ++ [⟨some false, some PowerSourceState.batteryPower, some true, some 100,
          some 500, some 99⟩] ++ ys) = Query (xs ++ ys) :=
  skipped_is_ignored _ (Or.inl rfl)

/-- C9 (the code departs from the claim). For a present AC description with
0 minutes to empty, the local `secs` that `checkps` computes and offers to the
selection rule is the sentinel -1, not 0, as the claim says; but for the list
of that one description the seconds `Query` returns are
18446744073709551615, not -1: `*seconds = secs` stores the sentinel through a
pointer to `unsigned long long`. -/
theorem zero_minutes_on_ac_seconds_not_minus_one :
    secs ⟨some true, some PowerSourceState.acPower, some false, some 100, some 0, some 100⟩
        true = -1 ∧
      (Query [⟨some true, some PowerSourceState.acPower, some false, some 100,
        some 0, some 100⟩]).seconds = 18446744073709551615 ∧
      ((Query [⟨some true, some PowerSourceState.acPower, some false, some 100,
        some 0, some 100⟩]).seconds : Int) ≠ -1 := by
  decide

/-- C10. Percent is clamped at 100: the percent `Query` returns is at most 100
for every list; and a present AC or battery description with current capacity
110, maximum capacity 100 and `T > 0` minutes to empty (`60 * T` in the range
of an `int`), alone in the list, gives percent exactly 100. -/
theorem percent_clamped_at_100 :
    (∀ ds : List PowerSourceDescription, (Query ds).percent ≤ 100) ∧
      ∀ (d : PowerSourceDescription) (T : Int),
        d.isPresent ≠ some false →
        (d.powerSourceState = some PowerSourceState.acPower ∨
          d.powerSourceState = some PowerSourceState.batteryPower) →
        d.currentCapacity = some 110 → d.maxCapacity = some 100 →
        d.timeToEmpty = some T → 0 < T → 60 * T < 2 ^ 31 →
        (Query [d]).percent = 100 := by
  constructor
  · intro ds
    rw [Query_eq_run]
    exact run_percent_le_100 ds initial (by decide)
  · intro d T hp hk hC hM hT hTpos hfit
    have hcnt : counted d = true := (counted_iff d).mpr ⟨hp, hk⟩
    have hsecs := secs_of_known d (isAC d) T hT hTpos hfit
    have hu := toU64_of_nonneg (60 * T) (by omega) (by omega)
    have hgt : toU64 (60 * T) > 0 := by omega
    have hnorm : normalize 110 100 = 110 := by decide
    have hpct : pct d = 100 := by
      rw [pct_of_pos d 100 110 hM (by decide) hC (by decide), hnorm]
      decide
    rw [Query_eq_run, run_cons, run_nil]
    simp only [checkps_percent, hcnt, hsecs, hpct, initial, hgt]
    decide

/-- C10 at a battery and at an AC description with capacity 110 of 100 and 30
minutes to empty. -/
theorem percent_clamped_at_100_witness :
    (Query [⟨some true, some PowerSourceState.batteryPower, some false, some 100,
        some 30, some 110⟩]).percent = 100 ∧
      (Query [⟨some true, some PowerSourceState.acPower, some true, some 100,
        some 30, some 110⟩]).percent = 100 :=
  ⟨percent_clamped_at_100.2 _ 30 (by decide) (Or.inr rfl) rfl rfl rfl (by decide) (by decide),
    percent_clamped_at_100.2 _ 30 (by decide) (Or.inl rfl) rfl rfl rfl (by decide)
      (by decide)⟩

/-- C11 as stated fails: for a present battery with current capacity 2 and
maximum capacity 3 the percent `checkps` computes is 66, whereas the nearest
integer to `100 * 2 / 3` is 67. -/
theorem percent_not_rounded :
    pct ⟨some true, some PowerSourceState.batteryPower, some false, some 3, some 30,
        some 2⟩ = 66 ∧
      roundNearestEven (100 * 2) 3 = 67 ∧
      (Query [⟨some true, some PowerSourceState.batteryPower, some false, some 3, some 30,
        some 2⟩]).percent = 66 := by
  decide

/-- C11, amended. Percent is truncated: for every present AC or battery
description with current capacity `c > 0` and maximum capacity `m > 0` (both
`SInt32`, with `100 * c / m` in the range of an `int`), the percent `checkps`
computes is `(int) (c / m * 100.0)` capped at 100, where the cast truncates
the `double` product: it is the integer part of `100 * c / m` or one less,
never more; `c = 2`, `m = 3` gives 66 and `c = 29`, `m = 100` gives 28. -/
theorem percent_is_truncated (d : PowerSourceDescription) (c m : Int)
    (_hp : d.isPresent ≠ some false)
    (_hk : d.powerSourceState = some PowerSourceState.acPower ∨
      d.powerSourceState = some PowerSourceState.batteryPower)
    (hcur : d.currentCapacity = some c) (hmax : d.maxCapacity = some m)
    (hc : 0 < c) (hc31 : c < 2 ^ 31) (hm : 0 < m) (hm31 : m < 2 ^ 31)
    (hfit : 100 * c < 2 ^ 31 * m) :
    pct d = min 100 (normalize c m) ∧
      100 * c / m - 1 ≤ normalize c m ∧ normalize c m ≤ 100 * c / m ∧
      min 100 (100 * c / m - 1) ≤ pct d ∧ pct d ≤ min 100 (100 * c / m) ∧
      normalize 2 3 = 66 ∧ normalize 29 100 = 28 := by
  obtain ⟨h1, h2⟩ := normalize_floor c m hc hc31 hm hm31 hfit
  have hpct : pct d = min 100 (normalize c m) := by
    rw [pct_of_pos d m c hmax hm hcur hc]
    split <;> omega
  refine ⟨hpct, h1, h2, ?_, ?_, by decide, by decide⟩
  · rw [hpct]
    omega
  · rw [hpct]
    omega

/-- C11 amended, at a present battery with current capacity 2 and maximum
capacity 3. -/
theorem percent_is_truncated_witness :
    pct ⟨some true, some PowerSourceState.batteryPower, some false, some 3, some 30,
        some 2⟩ = min 100 (normalize 2 3) ∧
      100 * 2 / 3 - 1 ≤ normalize 2 3 ∧ normalize 2 3 ≤ 100 * 2 / 3 ∧
      min 100 (100 * 2 / 3 - 1) ≤
        pct ⟨some true, some PowerSourceState.batteryPower, some false, some 3, some 30,
          some 2⟩ ∧
      pct ⟨some true, some PowerSourceState.batteryPower, some false, some 3, some 30,
          some 2⟩ ≤ min 100 (100 * 2 / 3) ∧
      normalize 2 3 = 66 ∧ normalize 29 100 = 28 :=
  percent_is_truncated _ 2 3 (by decide) (Or.inr rfl) rfl rfl (by decide) (by decide)
    (by decide) (by decide) (by decide)

/-- C12 as stated fails: for the empty list `Query` returns the state
NO_BATTERY, not UNKNOWN. -/
theorem empty_list_is_not_unknown :
    Query [] = ⟨State.STATE_NO_BATTERY, 0, 0⟩ ∧
      Query [] ≠ ⟨State.STATE_UNKNOWN, 0, 0⟩ := by
  decide

/-- C12, amended. Empty input: for the empty list of descriptions `Query`
returns exactly NO_BATTERY, 0 seconds, 0 percent; `GetPowerState` returns
UNKNOWN, 0, 0 when the target is not OS X, or when the operating system hands
back no power-source information or no list. -/
theorem empty_list_is_no_battery :
    Query [] = ⟨State.STATE_NO_BATTERY, 0, 0⟩ ∧
      (∀ sources : PowerSources,
        GetPowerState Target.TARGET_LINUX sources = ⟨State.STATE_UNKNOWN, 0, 0⟩ ∧
          GetPowerState Target.other sources = ⟨State.STATE_UNKNOWN, 0, 0⟩) ∧
      (∀ target : Target,
        GetPowerState target PowerSources.noBlob = ⟨State.STATE_UNKNOWN, 0, 0⟩ ∧
          GetPowerState target PowerSources.noList = ⟨State.STATE_UNKNOWN, 0, 0⟩) := by
  refine ⟨by decide, fun sources => ⟨rfl, rfl⟩, fun target => ?_⟩
  cases target <;> exact ⟨rfl, rfl⟩

/-- C13 (the code departs from the claim). Two present batteries of capacity
100 with neither a time-to-empty nor a current capacity, the first not
charging and the second charging: the second is not selected, the charging
flag stays false and `Query` returns ON_BATTERY (seconds `2 ^ 64 - 1`,
percent -1), not CHARGING. One `checkps` step on the second description
leaves the charging flag of the accumulator reached after the first. -/
theorem select_anyway_not_taken :
    Query [⟨some true, some PowerSourceState.batteryPower, some false, some 100, none, none⟩,
        ⟨some true, some PowerSourceState.batteryPower, some true, some 100, none, none⟩]
        = ⟨State.STATE_ON_BATTERY, 2 ^ 64 - 1, -1⟩ ∧
      (checkps ⟨some true, some PowerSourceState.batteryPower, some true, some 100, none, none⟩
        ⟨false, true, false, 2 ^ 64 - 1, -1⟩).charging = false := by
  decide

/-- C16. A battery reporting exactly 0 minutes is never selected: for every
accumulator and every present battery description with 0 minutes to empty,
`checkps` leaves `seconds`, `percent` and `charging` (and `have_ac`)
unchanged; the list of one charging battery with capacity 50 of 100 and 0
minutes gives percent 0, seconds 0 and state ON_BATTERY. -/
theorem zero_minute_battery_never_selected :
    (∀ (a : Accumulator) (d : PowerSourceDescription),
        d.isPresent ≠ some false →
        d.powerSourceState = some PowerSourceState.batteryPower →
        d.timeToEmpty = some 0 →
        (checkps d a).seconds = a.seconds ∧ (checkps d a).percent = a.percent ∧
          (checkps d a).charging = a.charging ∧ (checkps d a).have_ac = a.have_ac) ∧
      Query [⟨some true, some PowerSourceState.batteryPower, some true, some 100, some 0,
        some 50⟩] = ⟨State.STATE_ON_BATTERY, 0, 0⟩ := by
  refine ⟨?_, by decide⟩
  intro a d hp hk ht
  obtain ⟨hcnt, hac⟩ := counted_of_battery d hp hk
  have hs : secs d false = 0 := by
    unfold secs
    rw [ht]
    simp
  have hu : toU64 0 = 0 := by decide
  obtain ⟨h1, h2, h3⟩ := checkps_not_selected d a (fun _ => by rw [hac, hs, hu]; omega)
  refine ⟨h1, h2, h3, ?_⟩
  rw [checkps_have_ac, hac]
  simp

/-- C16 at a charging battery with 0 minutes and an accumulator that holds 600
seconds, 70 percent and no charging. -/
theorem zero_minute_battery_never_selected_witness :
    (checkps ⟨some true, some PowerSourceState.batteryPower, some true, some 100, some 0,
        some 50⟩ ⟨false, true, false, 600, 70⟩).seconds = 600 ∧
      (checkps ⟨some true, some PowerSourceState.batteryPower, some true, some 100, some 0,
        some 50⟩ ⟨false, true, false, 600, 70⟩).percent = 70 ∧
      (checkps ⟨some true, some PowerSourceState.batteryPower, some true, some 100, some 0,
        some 50⟩ ⟨false, true, false, 600, 70⟩).charging = false ∧
      (checkps ⟨some true, some PowerSourceState.batteryPower, some true, some 100, some 0,
        some 50⟩ ⟨false, true, false, 600, 70⟩).have_ac = false :=
  zero_minute_battery_never_selected.1 ⟨false, true, false, 600, 70⟩ _ (by decide) rfl rfl

/-- C17. The percent-comparison branch is dead: the guard `(secs < 0) &&
(*seconds < 0)` is false for every running `*seconds` and every `secs`, the
selection `choose` of the source equals the single test
`(unsigned long long) secs > *seconds` for all inputs, and neither the
description's percent nor the running percent influences it. -/
theorem percent_branch_is_dead (secs pct : Int) (seconds : Nat) (percent : Int) :
    ¬ (secs < 0 ∧ seconds < 0) ∧
      choose secs pct seconds percent = chooseUnsigned secs seconds ∧
      ∀ pct2 percent2 : Int,
        choose secs pct seconds percent = choose secs pct2 seconds percent2 := by
  refine ⟨fun h => Nat.not_lt_zero _ h.2, ?_, fun pct2 percent2 => ?_⟩
  · rw [choose_eq_decide]
    rfl
  · rw [choose_eq_decide, choose_eq_decide]

/-- C14. Seconds is an order-independent maximum: for every list the seconds
`Query` returns, as the unsigned 64-bit value stored through `*seconds`, are
the maximum of 0 and the `secs` values (each converted from `int` to unsigned
64-bit, so that -1 becomes `2 ^ 64 - 1`) of the descriptions that are not
skipped; hence they are the same for every permutation of the list. -/
theorem seconds_is_order_independent_max (ds : List PowerSourceDescription) :
    (Query ds).seconds = maxSeconds ds ∧
      (∀ d ∈ ds, counted d = true → toU64 (secs d (isAC d)) ≤ (Query ds).seconds) ∧
      ((Query ds).seconds = 0 ∨
        ∃ d ∈ ds, counted d = true ∧ (Query ds).seconds = toU64 (secs d (isAC d))) ∧
      toU64 (-1) = 2 ^ 64 - 1 ∧
      ∀ ds2 : List PowerSourceDescription, ds2.Perm ds →
        (Query ds2).seconds = (Query ds).seconds := by
  have hq : ∀ l : List PowerSourceDescription, (Query l).seconds = maxSeconds l := by
    intro l
    rw [Query_eq_run]
    simp only [run_seconds_eq_max, initial]
    omega
  have hmem : ∀ l : List PowerSourceDescription,
      maxSeconds l = 0 ∨
        ∃ d ∈ l, counted d = true ∧ maxSeconds l = toU64 (secs d (isAC d)) := by
    intro l
    induction l with
    | nil => exact Or.inl rfl
    | cons e l ih =>
      rw [maxSeconds_cons]
      by_cases hc : counted e = true
      · rw [if_pos hc]
        rcases le_total (toU64 (secs e (isAC e))) (maxSeconds l) with hle | hle
        · rw [max_eq_right hle]
          rcases ih with h0 | ⟨d, hd, hcd, hm⟩
          · exact Or.inl h0
          · exact Or.inr ⟨d, List.mem_cons_of_mem e hd, hcd, hm⟩
        · rw [max_eq_left hle]
          exact Or.inr ⟨e, List.mem_cons_self e l, hc, rfl⟩
      · rw [if_neg hc]
        rcases ih with h0 | ⟨d, hd, hcd, hm⟩
        · exact Or.inl h0
        · exact Or.inr ⟨d, List.mem_cons_of_mem e hd, hcd, hm⟩
  refine ⟨hq ds, ?_, ?_, by decide, ?_⟩
  · intro d hd hc
    have h1 := run_seconds_ge_of_mem ds initial d hd hc
    rw [Query_eq_run]
    exact h1
  · rw [hq ds]
    exact hmem ds
  · intro ds2 hperm
    rw [hq ds2, hq ds, maxSeconds_perm ds2 ds hperm]

/-- C15. An unknown-time description, once selected, is never displaced: let
`d` be the first description of the list that is not skipped and whose `secs`
is -1 (as when it has no time-to-empty), the times before it being `SInt32`
values. After `d` is processed the seconds are `2 ^ 64 - 1`, and whatever
follows `d`, the seconds, percent and charging flag at the end of the loop,
hence the seconds and percent `Query` returns, are those of `d`. -/
theorem unknown_time_never_displaced (xs ys : List PowerSourceDescription)
    (d : PowerSourceDescription) (hc : counted d = true)
    (hs : secs d (isAC d) = -1)
    (hfirst : ∀ e ∈ xs, counted e = true → secs e (isAC e) ≠ -1)
    (hrange : ∀ e ∈ xs, ∀ v : Int, e.timeToEmpty = some v → -(2 ^ 31) ≤ v ∧ v < 2 ^ 31) :
    (run (xs ++ [d]) initial).seconds = 2 ^ 64 - 1 ∧
      (run (xs ++ d :: ys) initial).seconds = 2 ^ 64 - 1 ∧
      (run (xs ++ d :: ys) initial).percent = floatOfInt (pct d) ∧
      (run (xs ++ d :: ys) initial).charging = charge d ∧
      (Query (xs ++ d :: ys)).seconds = 2 ^ 64 - 1 ∧
      (Query (xs ++ d :: ys)).percent = floatOfInt (pct d) := by
  have hu : toU64 (secs d (isAC d)) = 2 ^ 64 - 1 := by
    rw [hs]
    decide
  have hxs : ∀ e ∈ xs, counted e = true →
      toU64 (secs e (isAC e)) < toU64 (secs d (isAC d)) := by
    intro e he hce
    rw [hu]
    obtain ⟨hlo, hhi⟩ := secs_range e (isAC e) (hrange e he)
    exact toU64_lt_max _ hlo hhi (hfirst e he hce)
  have hle : ∀ l : List PowerSourceDescription, ∀ e ∈ l, counted e = true →
      toU64 (secs e (isAC e)) ≤ toU64 (secs d (isAC d)) := by
    intro l e _ _
    rw [hu]
    have := toU64_lt (secs e (isAC e))
    omega
  have hpos : 0 < toU64 (secs d (isAC d)) := by
    rw [hu]
    decide
  obtain ⟨a1, _, _⟩ := run_first_maximal xs [] d hc hxs (hle []) hpos
  obtain ⟨b1, b2, b3⟩ := run_first_maximal xs ys d hc hxs (hle ys) hpos
  rw [hu] at a1 b1
  rw [Query_eq_run]
  exact ⟨a1, b1, b2, b3, b1, b2⟩

/-- C15 at a battery with 10 minutes, then a non-charging battery without a
time-to-empty (40 of 100), then a charging battery with 500 minutes. -/
theorem unknown_time_never_displaced_witness :
    (run ([⟨some true, some PowerSourceState.batteryPower, some true, some 100, some 10,
          some 90⟩] ++
        [⟨some true, some PowerSourceState.batteryPower, some false, some 100, none,
          some 40⟩]) initial).seconds = 2 ^ 64 - 1 ∧
      (run ([⟨some true, some PowerSourceState.batteryPower, some true, some 100, some 10,
          some 90⟩] ++
        ⟨some true, some PowerSourceState.batteryPower, some false, some 100, none,
          some 40⟩ ::
        [⟨some true, some PowerSourceState.batteryPower, some true, some 100, some 500,
          some 90⟩]) initial).seconds = 2 ^ 64 - 1 ∧
      (run ([⟨some true, some PowerSourceState.batteryPower, some true, some 100, some 10,
          some 90⟩] ++
        ⟨some true, some PowerSourceState.batteryPower, some false, some 100, none,
          some 40⟩ ::
        [⟨some true, some PowerSourceState.batteryPower, some true, some 100, some 500,
          some 90⟩]) initial).percent =
        floatOfInt (pct ⟨some true, some PowerSourceState.batteryPower, some false, some 100,
          none, some 40⟩) ∧
      (run ([⟨some true, some PowerSourceState.batteryPower, some true, some 100, some 10,
          some 90⟩] ++
        ⟨some true, some PowerSourceState.batteryPower, some false, some 100, none,
          some 40⟩ ::
        [⟨some true, some PowerSourceState.batteryPower, some true, some 100, some 500,
          some 90⟩]) initial).charging =
        charge ⟨some true, some PowerSourceState.batteryPower, some false, some 100,
          none, some 40⟩ ∧
      (Query ([⟨some true, some PowerSourceState.batteryPower, some true, some 100, some 10,
          some 90⟩] ++
        ⟨some true, some PowerSourceState.batteryPower, some false, some 100, none,
          some 40⟩ ::
        [⟨some true, some PowerSourceState.batteryPower, some true, some 100, some 500,
          some 90⟩])).seconds = 2 ^ 64 - 1 ∧
      (Query ([⟨some true, some PowerSourceState.batteryPower, some true, some 100, some 10,
          some 90⟩] ++
        ⟨some true, some PowerSourceState.batteryPower, some false, some 100, none,
          some 40⟩ ::
        [⟨some true, some PowerSourceState.batteryPower, some true, some 100, some 500,
          some 90⟩])).percent =
        floatOfInt (pct ⟨some true, some PowerSourceState.batteryPower, some false, some 100,
          none, some 40⟩) :=
  unknown_time_never_displaced _ _ _ (by decide) (by decide) (by decide) (by
    intro e he v hv
    rw [List.mem_singleton.mp he] at hv
    cases hv
    exact ⟨by decide, by decide⟩)

/-- C18. Ties go to the earliest description: in a list whose descriptions
that are not skipped all report known positive times (with `60 * t` in the
range of an `int`), the percent `Query` returns and the charging flag from
which the state is derived are those of the first description that attains
the greatest time, a later one with an equal time never replacing it; and two
lists that are permutations of each other can give different percents and
different states. -/
theorem ties_go_to_earliest :
    (∀ (xs ys : List PowerSourceDescription) (d : PowerSourceDescription) (T : Int),
        counted d = true → d.timeToEmpty = some T → 0 < T → 60 * T < 2 ^ 31 →
        (∀ e ∈ xs, counted e = true → ∃ t : Int, e.timeToEmpty = some t ∧ 0 < t ∧ t < T) →
        (∀ e ∈ ys, counted e = true → ∃ t : Int, e.timeToEmpty = some t ∧ 0 < t ∧ t ≤ T) →
        (Query (xs ++ d :: ys)).percent = floatOfInt (pct d) ∧
          (run (xs ++ d :: ys) initial).charging = charge d ∧
          ((Query (xs ++ d :: ys)).seconds : Int) = 60 * T) ∧
      ∃ l1 l2 : List PowerSourceDescription, l1.Perm l2 ∧
        (Query l1).percent ≠ (Query l2).percent ∧ (Query l1).state ≠ (Query l2).state := by
  constructor
  · intro xs ys d T hc hT hTpos hfit hxs hys
    have hsd : secs d (isAC d) = 60 * T := secs_of_known d (isAC d) T hT hTpos hfit
    have hud := toU64_of_nonneg (60 * T) (by omega) (by omega)
    have h1 : ∀ e ∈ xs, counted e = true →
        toU64 (secs e (isAC e)) < toU64 (secs d (isAC d)) := by
      intro e he hce
      obtain ⟨t, ht, htpos, hlt⟩ := hxs e he hce
      rw [hsd, secs_of_known e (isAC e) t ht htpos (by omega)]
      have := toU64_of_nonneg (60 * t) (by omega) (by omega)
      omega
    have h2 : ∀ e ∈ ys, counted e = true →
        toU64 (secs e (isAC e)) ≤ toU64 (secs d (isAC d)) := by
      intro e he hce
      obtain ⟨t, ht, htpos, hle⟩ := hys e he hce
      rw [hsd, secs_of_known e (isAC e) t ht htpos (by omega)]
      have := toU64_of_nonneg (60 * t) (by omega) (by omega)
      omega
    obtain ⟨b1, b2, b3⟩ := run_first_maximal xs ys d hc h1 h2 (by rw [hsd]; omega)
    rw [Query_eq_run]
    refine ⟨b2, b3, ?_⟩
    simp only [b1, hsd]
    exact hud
  · exact ⟨[⟨some true, some PowerSourceState.batteryPower, some false, some 100, some 10,
        some 50⟩,
      ⟨some true, some PowerSourceState.batteryPower, some true, some 100, some 10,
        some 80⟩],
      [⟨some true, some PowerSourceState.batteryPower, some true, some 100, some 10,
        some 80⟩,
      ⟨some true, some PowerSourceState.batteryPower, some false, some 100, some 10,
        some 50⟩],
      List.Perm.swap _ _ _, by decide, by decide⟩

/-- C18 at two batteries that both report 10 minutes, the first at 50 percent
and not charging, the second at 80 percent and charging. -/
theorem ties_go_to_earliest_witness :
    (Query ([] ++
        ⟨some true, some PowerSourceState.batteryPower, some false, some 100, some 10,
          some 50⟩ ::
        [⟨some true, some PowerSourceState.batteryPower, some true, some 100, some 10,
          some 80⟩])).percent =
        floatOfInt (pct ⟨some true, some PowerSourceState.batteryPower, some false,
          some 100, some 10, some 50⟩) ∧
      (run ([] ++
        ⟨some true, some PowerSourceState.batteryPower, some false, some 100, some 10,
          some 50⟩ ::
        [⟨some true, some PowerSourceState.batteryPower, some true, some 100, some 10,
          some 80⟩]) initial).charging =
        charge ⟨some true, some PowerSourceState.batteryPower, some false,
          some 100, some 10, some 50⟩ ∧
      ((Query ([] ++
        ⟨some true, some PowerSourceState.batteryPower, some false, some 100, some 10,
          some 50⟩ ::
        [⟨some true, some PowerSourceState.batteryPower, some true, some 100, some 10,
          some 80⟩])).seconds : Int) = 60 * 10 :=
  ties_go_to_earliest.1 [] _ _ 10 (by decide) rfl (by decide) (by decide)
    (fun e he => absurd he (List.not_mem_nil e))
    (fun e he _ => by
      rw [List.mem_singleton.mp he]
      exact ⟨10, rfl, by decide, by decide⟩)

end OfxPower
